import Mathlib

/-!
# A verification development of the `gon` library

`gon` parses a relaxed, JSON-like configuration notation into a value tree
(`src/parser.rs`), re-serializes that tree either minimally (`Value::min_spell`)
or through a configurable pretty-printer (`Value::spell`, `src/value.rs`), and
bridges to and from a JSON value representation (`src/json.rs`).

This file is a shallow embedding of those three components.  Text is embedded
as `List Char`; the fallible parser returns `Except`.  The external tokenizer
(`klex`) and the external `textwrap` crate are not part of the repository:
where their behaviour decides a property they are modelled from the spec's
description of their contract (each such definition carries a doc comment
saying so).  The parser's mutual recursion is embedded with an explicit fuel
parameter (`none` = out of fuel); `parse` passes fuel
`2 * number_of_tokens + 2`, which is always sufficient: every recursive layer
of `next_value` / `obj_loop` / `list_loop` / `next_key_value_pair` consumes at
least one token per two fuel units (the round-trip lemmas below prove success
under exactly this bound, so no theorem ever relies on the out-of-fuel
branch).
-/

namespace Gon

/-- Modelled from the spec: `klex::Loc`, the source location carried by every
token — §6 says each token is annotated with a start location
(line, column, absolute offset), and locations carry the stream identifier
that `Loc::start_of_file` receives.  Zero-based. -/
structure Loc where
  file : Nat
  row : Nat
  col : Nat
  offset : Nat
deriving DecidableEq, Repr

/-- `klex::Loc::start_of_file`. -/
def Loc.start_of_file (f : Nat) : Loc := ⟨f, 0, 0, 0⟩

/-- Advance a location over one character. -/
def Loc.adv (l : Loc) (c : Char) : Loc :=
  if c = '\n' then ⟨l.file, l.row + 1, 0, l.offset + 1⟩
  else ⟨l.file, l.row, l.col + 1, l.offset + 1⟩

/-- Advance a location over a run of characters. -/
def Loc.advs (l : Loc) (cs : List Char) : Loc := cs.foldl Loc.adv l

/-- Modelled from the spec: the token kinds of the external tokenizer `klex` —
§6 lists symbol, string-literal, number-literal, comment and the punctuation
tokens (both braces, both brackets, colon, comma, minus).  Texts are the
token's character content. -/
inductive Token where
  | Sym (s : List Char)
  | Str (s : List Char)
  | Num (s : List Char)
  | Comment (s : List Char)
  | LBrace
  | RBrace
  | LBrack
  | RBrack
  | Colon
  | Comma
  | Dash
deriving DecidableEq, Repr

/-- `klex::RichToken`: a token plus its source location. -/
structure RichToken where
  inner : Token
  loc : Loc
deriving DecidableEq, Repr

/-- Modelled from the spec: the lexer-level error type (`klex::KlexError`) —
§6: the tokenizer "fails with a lexer-level error when input contains
unrecognized characters or malformed literals". -/
inductive KlexError where
  | UnexpectedChar (c : Char) (loc : Loc)
  | UnterminatedString (loc : Loc)
deriving DecidableEq, Repr

/-- Escaping of one character inside a spelled string literal (the inverse of
the escape handling in `readStr` below). -/
def escapeChar (c : Char) : List Char :=
  if c = '"' then ['\\', '"']
  else if c = '\\' then ['\\', '\\']
  else if c = '\n' then ['\\', 'n']
  else if c = '\t' then ['\\', 't']
  else if c = '\r' then ['\\', 'r']
  else [c]

/-- Escaping of a string-literal body. -/
def escapeStr (s : List Char) : List Char := (s.map escapeChar).flatten

/-- Modelled from the spec: `klex::Token::spelling` — §6: every token is
"able to report its own canonical re-spelling (used by the key-quoting probe
and raw/compact string rendering)". -/
def Token.spelling : Token → List Char
  | .Sym s => s
  | .Str s => '"' :: (escapeStr s ++ ['"'])
  | .Num s => s
  | .Comment s => s
  | .LBrace => ['{']
  | .RBrace => ['}']
  | .LBrack => ['[']
  | .RBrack => [']']
  | .Colon => [':']
  | .Comma => [',']
  | .Dash => ['-']

/-- Whitespace, the character class of the pretty-printer's squashing regex
`[ \t\r\n]`. -/
def isWs (c : Char) : Bool := c = ' ' || c = '\t' || c = '\n' || c = '\r'

/-- First character of a symbol token. -/
def isSymStart (c : Char) : Bool := c.isAlpha || c = '_'

/-- Continuation character of a symbol token. -/
def isSymChar (c : Char) : Bool := c.isAlphanum || c = '_'

/-- Continuation character of a number token (digit grouping with `_` and a
decimal point are part of the literal: the repository's own test suite lexes
`-9_000` and `3.14` as number literals). -/
def isNumChar (c : Char) : Bool := c.isDigit || c = '_' || c = '.'

/-- Escape resolution inside a string literal. -/
def unescape (c : Char) : Option Char :=
  if c = 'n' then some '\n'
  else if c = 't' then some '\t'
  else if c = 'r' then some '\r'
  else if c = '\\' then some '\\'
  else if c = '"' then some '"'
  else none

/-- Scanner state of the modelled tokenizer: between tokens, inside a string
literal (with its accumulated content, whether the previous character was a
backslash, and the literal's start location), or inside a symbol or number
token. -/
inductive LexMode where
  | normal
  | inStr (acc : List Char) (esc : Bool) (start : Loc)
  | inSym (acc : List Char) (start : Loc)
  | inNum (acc : List Char) (start : Loc)
deriving DecidableEq, Repr

/-- Modelled from the spec: one character of the external tokenizer `klex` in
between-token position — whitespace separates tokens, the seven punctuation
characters lex as themselves, a quote opens a string literal, a digit opens a
number literal, a letter or underscore opens a symbol, anything else is a
lexer error (§6). -/
def normalStep (c : Char) (l : Loc) : Except KlexError (List RichToken × LexMode) :=
  if isWs c then .ok ([], .normal)
  else if c = '{' then .ok ([⟨.LBrace, l⟩], .normal)
  else if c = '}' then .ok ([⟨.RBrace, l⟩], .normal)
  else if c = '[' then .ok ([⟨.LBrack, l⟩], .normal)
  else if c = ']' then .ok ([⟨.RBrack, l⟩], .normal)
  else if c = ':' then .ok ([⟨.Colon, l⟩], .normal)
  else if c = ',' then .ok ([⟨.Comma, l⟩], .normal)
  else if c = '-' then .ok ([⟨.Dash, l⟩], .normal)
  else if c = '"' then .ok ([], .inStr [] false l)
  else if c.isDigit then .ok ([], .inNum [c] l)
  else if isSymStart c then .ok ([], .inSym [c] l)
  else .error (.UnexpectedChar c l)

/-- Modelled from the spec: one scanner transition of the external tokenizer:
the tokens emitted by this character and the following state. -/
def stepChar (m : LexMode) (c : Char) (l : Loc) :
    Except KlexError (List RichToken × LexMode) :=
  match m with
  | .normal => normalStep c l
  | .inStr acc esc start =>
    if esc then
      match unescape c with
      | some u => .ok ([], .inStr (acc ++ [u]) false start)
      | none => .error (.UnterminatedString start)
    else if c = '"' then .ok ([⟨.Str acc, start⟩], .normal)
    else if c = '\\' then .ok ([], .inStr acc true start)
    else .ok ([], .inStr (acc ++ [c]) false start)
  | .inSym acc start =>
    if isSymChar c then .ok ([], .inSym (acc ++ [c]) start)
    else (normalStep c l).map (fun tm => (⟨.Sym acc, start⟩ :: tm.1, tm.2))
  | .inNum acc start =>
    if isNumChar c then .ok ([], .inNum (acc ++ [c]) start)
    else (normalStep c l).map (fun tm => (⟨.Num acc, start⟩ :: tm.1, tm.2))

/-- End-of-input: close the pending token, or fail on an unterminated
string literal. -/
def lexFlush (m : LexMode) : Except KlexError (List RichToken) :=
  match m with
  | .normal => .ok []
  | .inStr _ _ start => .error (.UnterminatedString start)
  | .inSym acc start => .ok [⟨.Sym acc, start⟩]
  | .inNum acc start => .ok [⟨.Num acc, start⟩]

/-- Modelled from the spec: the character scanner of the external tokenizer
`klex` (`Lexer::lex`) — §6: characters to an ordered sequence of located
tokens.  One `stepChar` transition per character.  Comment syntax is not
modelled (no claim depends on it; comment tokens can still stand in token
streams). -/
def lexM : List Char → Loc → LexMode → Except KlexError (List RichToken)
  | [], _, m => lexFlush m
  | c :: rest, l, m =>
    match stepChar m c l with
    | .error e => .error e
    | .ok (ts, m') => (lexM rest (l.adv c) m').map (ts ++ ·)

/-- `klex::Lexer::new(src, file).lex()` / `Lexer::from_iter(src, file).lex()`. -/
def lex (src : List Char) (file : Nat) : Except KlexError (List RichToken) :=
  lexM src (Loc.start_of_file file) .normal

/-- The gon value tree (`src/value.rs`, `enum Value`).  `Obj` carries its
entries as an ordered association list, matching the `preserve_order`
configuration of the Rust `MapT` (an `IndexMap`); with the `HashMap`
alternative the entry order is arbitrary, which §3 of the spec acknowledges. -/
inductive Value where
  | None : Value
  | Str (s : List Char) (raw : Bool) : Value
  | Num (s : List Char) : Value
  | Bool (b : Bool) : Value
  | Obj (m : List (List Char × Value)) : Value
  | List (xs : List Value) : Value

/-- The map type backing `Value::Obj` (`crate::MapT`). -/
abbrev MapT := List (List Char × Value)

/-- `MapT::insert`: replace the binding in place when the key is present
(both `HashMap` and `IndexMap` keep one binding per key; `IndexMap` keeps the
original position), otherwise append. -/
def MapT.insert (m : MapT) (k : List Char) (v : Value) : MapT :=
  match m with
  | [] => [(k, v)]
  | (k', v') :: rest =>
    if k' = k then (k, v) :: rest else (k', v') :: MapT.insert rest k v

/-- Key lookup in a `MapT`. -/
def MapT.get? (m : MapT) (k : List Char) : Option Value :=
  match m with
  | [] => none
  | (k', v') :: rest => if k' = k then some v' else MapT.get? rest k

/-- `GonError` (`src/lib.rs`). -/
inductive GonError where
  | LexerErr (e : KlexError)
  | NoValueErr
  | InvalidValue (s : List Char) (loc : Loc)
  | UnexpectedToken (t : Token) (loc : Loc)
  | MissingColon (k : List Char) (loc : Loc)
  | MissingValue (k : List Char) (loc : Loc)
  | UnclosedDelimiter (c : Char) (loc : Loc)
  | LeftoverTokens (t : Token) (loc : Loc)
deriving DecidableEq, Repr

/-- `struct TokenIter` (`src/parser.rs`): a cursor over the token sequence
that remembers the location of the most recently consumed token. -/
structure TokenIter where
  rest : List RichToken
  loc : Loc
deriving DecidableEq, Repr

/-- `TokenIter::next` (the `Iterator` impl): consume one token, recording its
location. -/
def TokenIter.next (it : TokenIter) : Option (RichToken × TokenIter) :=
  match it.rest with
  | [] => Option.none
  | rt :: r => some (rt, ⟨r, rt.loc⟩)

/-- `TokenIter::peek`. -/
def TokenIter.peek (it : TokenIter) : Option RichToken := it.rest.head?

/-- `TokenIter::next` used for its state effect only (the result discarded). -/
def TokenIter.advance (it : TokenIter) : TokenIter :=
  match it.rest with
  | [] => it
  | rt :: r => ⟨r, rt.loc⟩

/-- `consume_optional_comma` (`src/parser.rs`). -/
def consume_optional_comma (it : TokenIter) : TokenIter :=
  match it.peek with
  | some rt => if rt.inner = Token.Comma then it.advance else it
  | none => it

mutual

/-- `next_value` (`src/parser.rs`), with an explicit fuel parameter standing
for the Rust recursion (outer `none` = out of fuel; `parse` always passes
enough fuel).  The returned `TokenIter` is the iterator state after the call,
which Rust threads through `&mut` — also on the error path. -/
def next_value : Nat → TokenIter → Option (Except GonError Value × TokenIter)
  | 0, _ => Option.none
  | fuel + 1, tokens =>
    match tokens.next with
    | Option.none => some (.error .NoValueErr, tokens)
    | some (first_token, it1) =>
      match first_token.inner with
      | .Sym sym =>
        let sym_lower := sym.map Char.toLower
        if sym_lower = "none".toList ∨ sym_lower = "null".toList then
          some (.ok .None, it1)
        else if sym_lower = "true".toList then
          some (.ok (.Bool true), it1)
        else if sym_lower = "false".toList then
          some (.ok (.Bool false), it1)
        else if sym_lower = ['r'] then
          match it1.peek.map RichToken.inner with
          | some (.Str string) => some (.ok (.Str string true), it1.advance)
          | _ => some (.error (.InvalidValue sym first_token.loc), it1)
        else
          some (.error (.InvalidValue sym first_token.loc), it1)
      | .Str string => some (.ok (.Str string false), it1)
      | .Num num => some (.ok (.Num num), it1)
      | .Dash =>
        match it1.peek.map RichToken.inner with
        | some (.Num ns) => some (.ok (.Num ('-' :: ns)), it1.advance)
        | _ => some (.error (.UnexpectedToken .Dash first_token.loc), it1)
      | .LBrace =>
        let opening_loc := it1.loc
        obj_loop fuel opening_loc [] it1
      | .LBrack =>
        let opening_loc := it1.loc
        list_loop fuel opening_loc [] it1
      | token => some (.error (.UnexpectedToken token first_token.loc), it1)

/-- The object-reading loop inside `next_value`'s `Token::LBrace` arm. -/
def obj_loop : Nat → Loc → MapT → TokenIter →
    Option (Except GonError Value × TokenIter)
  | 0, _, _, _ => Option.none
  | fuel + 1, opening_loc, map, tokens =>
    if tokens.peek.map RichToken.inner = some Token.RBrace then
      some (.ok (.Obj map), tokens.advance)
    else
      match next_key_value_pair fuel tokens with
      | Option.none => Option.none
      | some (.error e, itE) => some (.error e, itE)
      | some (.ok Option.none, itE) =>
        some (.error (.UnclosedDelimiter '}' opening_loc), itE)
      | some (.ok (some (key, value)), it') =>
        obj_loop fuel opening_loc (map.insert key value) (consume_optional_comma it')

/-- The list-reading loop inside `next_value`'s `Token::LBrack` arm. -/
def list_loop : Nat → Loc → List Value → TokenIter →
    Option (Except GonError Value × TokenIter)
  | 0, _, _, _ => Option.none
  | fuel + 1, opening_loc, list, tokens =>
    if tokens.peek.map RichToken.inner = some Token.RBrack then
      some (.ok (.List list), tokens.advance)
    else
      match next_value fuel tokens with
      | Option.none => Option.none
      | some (.error _, itE) =>
        some (.error (.UnclosedDelimiter ']' opening_loc), itE)
      | some (.ok value, it') =>
        list_loop fuel opening_loc (list ++ [value]) (consume_optional_comma it')

/-- `next_key_value_pair` (`src/parser.rs`).  The payload is `none` when the
token stream was exhausted before a key was read (Rust's `Ok(None)`). -/
def next_key_value_pair : Nat → TokenIter →
    Option (Except GonError (Option (List Char × Value)) × TokenIter)
  | 0, _ => Option.none
  | fuel + 1, tokens =>
    match tokens.next with
    | Option.none => some (.ok Option.none, tokens)
    | some (first, it1) =>
      match first.inner with
      | .Comment c =>
        some (.error (.UnexpectedToken (.Comment c) it1.loc), it1)
      | token =>
        let key := match token with
          | .Str s => s
          | .Num s => s
          | .Sym s => s
          | t => t.spelling
        match it1.next with
        | Option.none => some (.error (.MissingColon key it1.loc), it1)
        | some (ct, it2) =>
          if ct.inner = Token.Colon then
            match next_value fuel it2 with
            | Option.none => Option.none
            | some (.error _, itE) =>
              some (.error (.MissingValue key itE.loc), itE)
            | some (.ok value, it3) => some (.ok (some (key, value)), it3)
          else
            some (.error (.MissingColon key it2.loc), it2)

end

/-- `parse` (`src/parser.rs`) over an already-lexed token sequence.  The fuel
`2 * tokens.length + 2` is always sufficient (see the module comment); the
out-of-fuel branch returns `NoValueErr` but is never reached, and no theorem
below depends on it. -/
def parseTokens (toks : List RichToken) : Except GonError Value :=
  let it : TokenIter := ⟨toks, Loc.start_of_file 0⟩
  match next_value (2 * toks.length + 2) it with
  | some (.ok value, it') =>
    match it'.next with
    | some (tok, it'') => .error (.LeftoverTokens tok.inner it''.loc)
    | Option.none => .ok value
  | some (.error e, _) => .error e
  | Option.none => .error .NoValueErr

/-- `parse` (`src/parser.rs`): lex, then parse, then require that no token
is left over. -/
def parse (src : List Char) : Except GonError Value :=
  match lex src 0 with
  | .error e => .error (.LexerErr e)
  | .ok toks => parseTokens toks

/-- `parse_str` (`src/parser.rs`). -/
def parse_str (src : String) : Except GonError Value := parse src.toList

/-- `SpellConfig` (`src/value.rs`). -/
structure SpellConfig where
  indent_amount : Nat
  indent_char : Char
  trailing_commas : Bool
  /-- Max width of string literals before they get wrapped. -/
  max_width : Nat
deriving DecidableEq, Repr

/-- `impl Default for SpellConfig`. -/
def SpellConfig.default : SpellConfig := ⟨4, ' ', false, 100⟩

/-- `gen_indent` (`src/value.rs`). -/
def gen_indent (amount : Nat) (config : SpellConfig) : List Char :=
  List.replicate amount config.indent_char

/-- `apply_indent` (`src/value.rs`): write the indent into the buffer. -/
def apply_indent (buf : List Char) (amount : Nat) (config : SpellConfig) : List Char :=
  buf ++ gen_indent amount config

/-- Pending-whitespace state of `squash_whitespace`: nothing pending, one
whitespace character pending, or a run of two or more pending. -/
inductive SqPend where
  | empty
  | one (c : Char)
  | run
deriving DecidableEq, Repr

/-- The run scanner behind `squash_whitespace`. -/
def sqGo : List Char → SqPend → List Char
  | [], .empty => []
  | [], .one c => [c]
  | [], .run => [' ']
  | c :: rest, m =>
    if isWs c then
      match m with
      | .empty => sqGo rest (.one c)
      | .one _ => sqGo rest .run
      | .run => sqGo rest .run
    else
      match m with
      | .empty => c :: sqGo rest .empty
      | .one w => w :: c :: sqGo rest .empty
      | .run => ' ' :: c :: sqGo rest .empty

/-- `squash_whitespace` (`src/value.rs`): every maximal run of two or more
whitespace characters (the regex `[ \t\r\n]{2,}`) collapses to one space; a
single whitespace character is left as it is. -/
def squash_whitespace (input : List Char) : List Char := sqGo input .empty

/-- `key_needs_quoting` (`src/value.rs`): probe the tokenizer with the bare
key text; quote when lexing fails or yields more than one token. -/
def key_needs_quoting (key : List Char) : Bool :=
  match lex key 0 with
  | .ok tokens => tokens.length > 1
  | .error _ => true

mutual

/-- `Value::min_spell` (`src/value.rs`). -/
def min_spell : Value → List Char
  | .None => "None".toList
  | .Str s raw =>
    if raw then 'r' :: (Token.Str s).spelling else (Token.Str s).spelling
  | .Num s => s
  | .Bool b => if b then "true".toList else "false".toList
  | .Obj m => '\x7b' :: (min_spell_pairs m ++ ['\x7d'])
  | .List xs => '[' :: (min_spell_items xs ++ [']'])

/-- The body of `min_spell`'s object loop: one `key:value` per entry, with a
comma after every entry except the last (`i != m.len() - 1`). -/
def min_spell_pairs : List (List Char × Value) → List Char
  | [] => []
  | (k, v) :: rest =>
    (if key_needs_quoting k then '"' :: (k ++ ['"']) else k) ++ [':'] ++ min_spell v
      ++ (if rest.isEmpty then [] else [',']) ++ min_spell_pairs rest

/-- The body of `min_spell`'s list loop. -/
def min_spell_items : List Value → List Char
  | [] => []
  | v :: rest =>
    min_spell v ++ (if rest.isEmpty then [] else [',']) ++ min_spell_items rest

end

/-- Modelled from the spec: greedy refill helper of `wrapText` (the external
`textwrap::wrap`): words are packed while they fit in `width` columns;
continuation lines carry the `subIndent` run. -/
def wrapFill (width : Nat) (subIndent : List Char) : List Char → List (List Char) →
    List (List Char)
  | line, [] => [line]
  | line, w :: ws =>
    if line.length + 1 + w.length ≤ width then
      wrapFill width subIndent (line ++ ' ' :: w) ws
    else
      line :: wrapFill width subIndent (subIndent ++ w) ws

/-- Modelled from the spec: the external `textwrap::wrap` with
`Options::new(width).subsequent_indent(subIndent)` — §4.3: "word-wrap at
`config.max_width` columns with continuation lines indented".  A text that
already fits within the width is returned unchanged as a single line;
otherwise the space-separated words are refilled greedily by `wrapFill`. -/
def wrapText (width : Nat) (subIndent : List Char) (text : List Char) : List (List Char) :=
  if text.length ≤ width then [text]
  else
    match text.splitOn ' ' with
    | [] => [text]
    | w :: ws => wrapFill width subIndent w ws

mutual

/-- `Value::spell0` (`src/value.rs`): append the rendering of `v` at
indentation depth `current_indent` to `buf`.  Writing into a Rust `String`
buffer cannot fail, so the `std::fmt::Result` plumbing is dropped. -/
def spell0 (v : Value) (buf : List Char) (current_indent : Nat)
    (config : SpellConfig) : List Char :=
  match v with
  | .None => buf ++ "None".toList
  | .Str s raw =>
    if config.max_width = 0 then
      buf ++ (Token.Str s).spelling
    else if raw then
      buf ++ 'r' :: (Token.Str s).spelling
    else
      let raw_str := squash_whitespace (Token.Str s).spelling
      let wrapped_lines :=
        wrapText config.max_width
          (gen_indent (current_indent + config.indent_amount) config) raw_str
      buf ++ List.intercalate ['\n'] wrapped_lines
  | .Num s => buf ++ s
  | .Bool b => buf ++ (if b then "true".toList else "false".toList)
  | .Obj obj =>
    let buf := buf ++ ('\x7b' :: ['\n'])
    let new_indent := current_indent + config.indent_amount
    let buf := spell_pairs obj buf new_indent config
    (apply_indent buf current_indent config) ++ ['\x7d']
  | .List xs =>
    if xs.isEmpty then buf ++ ['[', ']']
    else
      let oneline := xs.length ≤ 5 &&
        (xs.find? (fun v => match v with | .List _ => true | .Obj _ => true | _ => false)).isNone
      let buf := buf ++ (if oneline then ['['] else ['[', '\n'])
      let buf := spell_items xs buf current_indent config oneline
      let buf := if oneline then buf else apply_indent buf current_indent config
      buf ++ [']']

/-- The per-entry object loop of `spell0`: indent, key (quoted per
`key_needs_quoting`), `": "`, the value, then `",\n"` — or a bare newline
after the last entry when `trailing_commas` is off. -/
def spell_pairs (m : List (List Char × Value)) (buf : List Char)
    (new_indent : Nat) (config : SpellConfig) : List Char :=
  match m with
  | [] => buf
  | (k, v) :: rest =>
    let buf := apply_indent buf new_indent config
    let buf := buf ++
      (if key_needs_quoting k then '"' :: (k ++ ('"' :: ':' :: [' '])) else k ++ [':', ' '])
    let buf := spell0 v buf new_indent config
    let buf := buf ++ (if !config.trailing_commas && rest.isEmpty then ['\n'] else [',', '\n'])
    spell_pairs rest buf new_indent config

/-- The per-element list loop of `spell0`: one line with `", "` separators in
one-line mode; indent + element + comma policy + newline in multi-line mode. -/
def spell_items (xs : List Value) (buf : List Char) (current_indent : Nat)
    (config : SpellConfig) (oneline : Bool) : List Char :=
  match xs with
  | [] => buf
  | x :: rest =>
    let buf :=
      if oneline then spell0 x buf 0 config
      else
        spell0 x (apply_indent buf (current_indent + config.indent_amount) config)
          (current_indent + config.indent_amount) config
    let buf :=
      if oneline then
        if rest.isEmpty then buf else buf ++ [',', ' ']
      else
        (if config.trailing_commas || !rest.isEmpty then buf ++ [','] else buf) ++ ['\n']
    spell_items rest buf current_indent config oneline

end

/-- `Value::spell` (`src/value.rs`): render into a fresh buffer at depth 0.
Writing into a `String` cannot fail, so the `Result` wrapper is dropped. -/
def spell (v : Value) (config : SpellConfig) : List Char := spell0 v [] 0 config

/-- `Value::as_i128`, whose `num.parse::<i128>()` is modelled by
`parseI128`. -/
def parseI128 (s : List Char) : Option Int :=
  let signed : Int × List Char :=
    match s with
    | '-' :: rest => (-1, rest)
    | '+' :: rest => (1, rest)
    | _ => (1, s)
  let digits := signed.2
  if digits = [] || !digits.all Char.isDigit then Option.none
  else
    let n : Int := signed.1 * (digits.foldl (fun a c => a * 10 + (c.toNat - '0'.toNat)) 0)
    if -(2 ^ 127) ≤ n ∧ n ≤ 2 ^ 127 - 1 then some n else Option.none

/-- `Value::as_i128` (`src/value.rs`). -/
def Value.as_i128 : Value → Option Int
  | .Num num => parseI128 num
  | _ => Option.none

/-- Modelled from the spec: `serde_json::Value`, the JSON value
representation the bridge converts to and from.  Only integer JSON numbers
are modelled: the `f64` fallback of the bridge is floating-point arithmetic
with no faithful shallow embedding (and §7 calls that path a latent defect);
no claim in this development depends on JSON numbers. -/
inductive JsonValue where
  | Null : JsonValue
  | Bool (b : Bool) : JsonValue
  | Number (n : Int) : JsonValue
  | String (s : List Char) : JsonValue
  | Array (xs : List JsonValue) : JsonValue
  | Object (m : List (List Char × JsonValue)) : JsonValue

mutual

/-- `impl From<Value> for JsonValue` (`src/json.rs`).  Partial in the
embedding: the `Num` arm falls back to `f64` (and can panic) when the text is
not i128-parsable — that unembeddable branch is `none` here; every claim
stays on the total part. -/
def toJson : Value → Option JsonValue
  | .None => some .Null
  | .Bool b => some (.Bool b)
  | .Num num =>
    match parseI128 num with
    | some n => some (.Number n)
    | Option.none => Option.none
  | .Str s _raw => some (.String s)
  | .List xs => (toJsonItems xs).map .Array
  | .Obj obj => (toJsonPairs obj).map .Object

def toJsonItems : List Value → Option (List JsonValue)
  | [] => some []
  | v :: rest =>
    match toJson v, toJsonItems rest with
    | some j, some js => some (j :: js)
    | _, _ => Option.none

def toJsonPairs : List (List Char × Value) → Option (List (List Char × JsonValue))
  | [] => some []
  | (k, v) :: rest =>
    match toJson v, toJsonPairs rest with
    | some j, some js => some ((k, j) :: js)
    | _, _ => Option.none

end

/-- Decimal spelling of an integer (`serde_json`'s canonical text for an
integer number, used by `n.to_string()`). -/
def intToText (n : Int) : List Char := (toString n).toList

mutual

/-- `impl From<JsonValue> for Value` (`src/json.rs`).  Note the `String` arm:
every JSON string becomes `Str { raw: true }`. -/
def fromJson : JsonValue → Value
  | .Null => .None
  | .Bool b => .Bool b
  | .Number n => .Num (intToText n)
  | .String s => .Str s true
  | .Array xs => .List (fromJsonItems xs)
  | .Object obj => .Obj (fromJsonPairs obj)

def fromJsonItems : List JsonValue → List Value
  | [] => []
  | j :: rest => fromJson j :: fromJsonItems rest

def fromJsonPairs : List (List Char × JsonValue) → List (List Char × Value)
  | [] => []
  | (k, j) :: rest => (k, fromJson j) :: fromJsonPairs rest

end


/-! ## Token-level encodings and round-trip safety predicates

`EncV v ts` says the token sequence `ts` is one of the streams the parser
decodes to `v`: exactly the grammar of §6, with the comma after every object
entry and list element optional.  Both renderers emit such streams. -/

mutual

/-- Token streams decoding to a given value (commas optional). -/
def EncV : Value → List Token → Prop
  | .None, ts =>
    ∃ s, ts = [Token.Sym s] ∧
      (s.map Char.toLower = "none".toList ∨ s.map Char.toLower = "null".toList)
  | .Bool b, ts =>
    ∃ s, ts = [Token.Sym s] ∧
      s.map Char.toLower = (if b then "true".toList else "false".toList)
  | .Str s raw, ts =>
    (raw = false ∧ ts = [Token.Str s]) ∨
      (raw = true ∧ ∃ r, ts = [Token.Sym r, Token.Str s] ∧ r.map Char.toLower = ['r'])
  | .Num s, ts =>
    ts = [Token.Num s] ∨ ∃ t, s = '-' :: t ∧ ts = [Token.Dash, Token.Num t]
  | .Obj m, ts => ∃ body, ts = Token.LBrace :: body ∧ EncPairs m body
  | .List xs, ts => ∃ body, ts = Token.LBrack :: body ∧ EncItems xs body

/-- Token streams decoding to a given entry list, up to the closing brace. -/
def EncPairs : List (List Char × Value) → List Token → Prop
  | [], ts => ts = [Token.RBrace]
  | (k, v) :: rest, ts =>
    ∃ kt vts cs rts, ts = kt :: Token.Colon :: (vts ++ cs ++ rts) ∧
      (kt = Token.Sym k ∨ kt = Token.Num k ∨ kt = Token.Str k) ∧
      EncV v vts ∧ (cs = [] ∨ cs = [Token.Comma]) ∧ EncPairs rest rts

/-- Token streams decoding to a given element list, up to the closing
bracket. -/
def EncItems : List Value → List Token → Prop
  | [], ts => ts = [Token.RBrack]
  | v :: rest, ts =>
    ∃ vts cs rts, ts = vts ++ cs ++ rts ∧
      EncV v vts ∧ (cs = [] ∨ cs = [Token.Comma]) ∧ EncItems rest rts

end

/-- `obj_loop`'s map accumulation: insert the entries in source order. -/
def insertAll (acc : MapT) : List (List Char × Value) → MapT
  | [] => acc
  | (k, v) :: rest => insertAll (acc.insert k v) rest

/-- A nonempty all-digit-headed number-token body. -/
def numCore : List Char → Bool
  | [] => false
  | c :: rest => c.isDigit && rest.all isNumChar

/-- Numeric text the tokenizer reproduces exactly: a number token body,
optionally preceded by the minus sign the parser fuses back in. -/
def numOk : List Char → Bool
  | '-' :: t => numCore t
  | s => numCore s

/-- Text that lexes as one symbol token of the same spelling. -/
def goodSym : List Char → Bool
  | [] => false
  | c :: rest => isSymStart c && rest.all isSymChar

/-- Key text whose naive re-quoting (`'"' ++ k ++ '"'`, no escaping — what
both renderers emit) lexes back to a string token with content `k`. -/
def strSafe (k : List Char) : Bool := k.all (fun c => !(c = '"' || c = '\\'))

/-- Object keys both renderers reproduce: either bare-tokenizable as a single
symbol or number token of the same text, or quotable without escaping. -/
def goodKey (k : List Char) : Bool :=
  goodSym k || numCore k || (key_needs_quoting k && strSafe k)

/-- Pairwise distinctness of object keys. -/
def keysDistinct : List (List Char) → Bool
  | [] => true
  | k :: rest => rest.all (fun x => x != k) && keysDistinct rest

mutual

/-- Values whose minimal spelling re-parses to the value itself: no raw
string, every numeric text an exactly re-tokenizable literal, every object
key reproducible and object keys pairwise distinct.  (This is the claim's
"no raw-string and no numeric-text edge cases", made explicit; the key
conditions are forced by keys such as `""`, which `min_spell` emits bare as
the empty text.) -/
def SafeMin : Value → Bool
  | .None => true
  | .Bool _ => true
  | .Num s => numOk s
  | .Str _ raw => !raw
  | .Obj m => keysDistinct (m.map Prod.fst) && SafeMinPairs m
  | .List xs => SafeMinItems xs

def SafeMinPairs : List (List Char × Value) → Bool
  | [] => true
  | (k, v) :: rest => goodKey k && SafeMin v && SafeMinPairs rest

def SafeMinItems : List Value → Bool
  | [] => true
  | v :: rest => SafeMin v && SafeMinItems rest

end

/-- No two adjacent whitespace characters. -/
def noWsRun : List Char → Bool
  | [] => true
  | [_] => true
  | a :: b :: rest => !(isWs a && isWs b) && noWsRun (b :: rest)

/-- A string literal the pretty-printer reproduces verbatim under `cfg`:
either wrapping is off (`max_width = 0`), or the spelled literal contains no
two adjacent whitespace characters (so squashing is the identity) and fits
within `max_width` (so wrapping is the identity). -/
def strFmtOk (cfg : SpellConfig) (s : List Char) : Bool :=
  cfg.max_width = 0 ||
    (noWsRun (Token.Str s).spelling && (Token.Str s).spelling.length ≤ cfg.max_width)

mutual

/-- The extra conditions under which the pretty-printed spelling re-parses:
every string literal in the value is reproduced verbatim (see `strFmtOk`). -/
def FmtOk (cfg : SpellConfig) : Value → Bool
  | .None => true
  | .Bool _ => true
  | .Num _ => true
  | .Str s _ => strFmtOk cfg s
  | .Obj m => FmtOkPairs cfg m
  | .List xs => FmtOkItems cfg xs

def FmtOkPairs (cfg : SpellConfig) : List (List Char × Value) → Bool
  | [] => true
  | (_, v) :: rest => FmtOk cfg v && FmtOkPairs cfg rest

def FmtOkItems (cfg : SpellConfig) : List Value → Bool
  | [] => true
  | v :: rest => FmtOk cfg v && FmtOkItems cfg rest

end


/-- Join chunks with a separator between consecutive chunks (used to state
the renderers' closed forms). -/
def joinSep (sep : List Char) : List (List Char) → List Char
  | [] => []
  | [x] => x
  | x :: rest => x ++ sep ++ joinSep sep rest

/-- Container check used by the one-line list heuristic. -/
def isContainer : Value → Bool
  | .List _ => true
  | .Obj _ => true
  | _ => false

/-! ## Buffer locality of the pretty-printer

`spell0` only ever appends to its buffer; these lemmas let every rendering
be reasoned about relative to the empty buffer. -/

mutual

theorem spell0_append (v : Value) (a b : List Char) (i : Nat) (c : SpellConfig) :
    spell0 v (a ++ b) i c = a ++ spell0 v b i c := by
  match v with
  | .None => simp [spell0]
  | .Str s raw =>
    simp only [spell0]
    split
    · simp
    · split <;> simp
  | .Num s => simp [spell0]
  | .Bool b => simp [spell0]
  | .Obj m =>
    simp only [spell0, apply_indent, List.append_assoc]
    rw [spell_pairs_append m a]
    simp
  | .List xs =>
    simp only [spell0]
    split
    · simp
    · split
      · simp only [List.append_assoc]
        rw [spell_items_append xs a]
        simp
      · simp only [List.append_assoc]
        rw [spell_items_append xs a]
        simp [apply_indent]

theorem spell_pairs_append (m : List (List Char × Value)) (a b : List Char)
    (ni : Nat) (c : SpellConfig) :
    spell_pairs m (a ++ b) ni c = a ++ spell_pairs m b ni c := by
  match m with
  | [] => simp [spell_pairs]
  | (k, v) :: rest =>
    simp only [spell_pairs, apply_indent, List.append_assoc]
    split
    · rw [spell0_append v a]
      simp only [List.append_assoc]
      rw [spell_pairs_append rest a]
    · rw [spell0_append v a]
      simp only [List.append_assoc]
      rw [spell_pairs_append rest a]

theorem spell_items_append (xs : List Value) (a b : List Char) (i : Nat)
    (c : SpellConfig) (ol : Bool) :
    spell_items xs (a ++ b) i c ol = a ++ spell_items xs b i c ol := by
  match xs with
  | [] => simp [spell_items]
  | x :: rest =>
    simp only [spell_items, apply_indent, List.append_assoc]
    cases ol with
    | true =>
      simp only [if_true]
      rw [show spell0 x (a ++ b) 0 c = a ++ spell0 x b 0 c from spell0_append x a b 0 c]
      split
      · rw [spell_items_append rest a]
      · simp only [List.append_assoc]
        rw [spell_items_append rest a]
    | false =>
      simp only [Bool.false_eq_true, if_false]
      rw [spell0_append x a]
      split
      · simp only [List.append_assoc]
        rw [spell_items_append rest a]
      · simp only [List.append_assoc]
        rw [spell_items_append rest a]

end

/-- Buffer locality relative to the empty buffer. -/
theorem spell0_buf (v : Value) (buf : List Char) (i : Nat) (c : SpellConfig) :
    spell0 v buf i c = buf ++ spell0 v [] i c := by
  have := spell0_append v buf [] i c
  simpa using this

/-- Buffer locality of the object loop relative to the empty buffer. -/
theorem spell_pairs_buf (m : List (List Char × Value)) (buf : List Char)
    (ni : Nat) (c : SpellConfig) :
    spell_pairs m buf ni c = buf ++ spell_pairs m [] ni c := by
  have := spell_pairs_append m buf [] ni c
  simpa using this

/-- Buffer locality of the list loop relative to the empty buffer. -/
theorem spell_items_buf (xs : List Value) (buf : List Char) (i : Nat)
    (c : SpellConfig) (ol : Bool) :
    spell_items xs buf i c ol = buf ++ spell_items xs [] i c ol := by
  have := spell_items_append xs buf [] i c ol
  simpa using this


/-! ## Claims -/

/-- C1 (corrected): for every string `s`, converting `Str \x7bs, raw:true\x7d` to a
JSON value and back yields `Str \x7bs, raw:true\x7d` — the text is identical and the
raw flag is always `true` after the round trip (`From<JsonValue> for Value`
maps every JSON string to `raw: true`, not `raw: false` as the claim
states). -/
theorem c1_json_string_round_trip (s : List Char) :
    (toJson (Value.Str s true)).map fromJson = some (Value.Str s true) := rfl

/-- C1 counterexample: at `s = ['x']` the round trip yields the raw string,
not `Str \x7bs, raw:false\x7d` as claimed. -/
theorem c1_counterexample :
    (toJson (Value.Str ['x'] true)).map fromJson = some (Value.Str ['x'] true) ∧
      Value.Str ['x'] true ≠ Value.Str ['x'] false := ⟨rfl, by simp⟩

/-- C2 (corrected): a raw string is always emitted without squashing or
wrapping, but the `r` marker is kept only when `max_width ≠ 0`: the
`max_width == 0` branch of `spell0` comes first and emits the bare literal
without its `r`. -/
theorem c2_raw_string_spell (s buf : List Char) (i : Nat) (cfg : SpellConfig) :
    spell0 (Value.Str s true) buf i cfg =
      buf ++ (if cfg.max_width = 0 then [] else ['r']) ++ (Token.Str s).spelling ∧
    spell (Value.Str s true) cfg =
      (if cfg.max_width = 0 then [] else ['r']) ++ (Token.Str s).spelling := by
  constructor <;>
    (simp only [spell, spell0]; split <;> simp)

/-- C2 counterexample: with `max_width = 0` the `r` marker is dropped. -/
theorem c2_counterexample :
    spell (Value.Str ['a'] true) ⟨4, ' ', false, 0⟩ ≠
      'r' :: (Token.Str ['a']).spelling := by decide

/-- C7 (confirmed): an unclosed object or list reports `UnclosedDelimiter`
with the matching closing character and the location of the opening token
(shown both at the start of input and after leading whitespace, where the
location visibly tracks the opening brace or bracket). -/
theorem c7_unclosed_delimiters :
    parse_str "\x7ba: 1" = .error (.UnclosedDelimiter '\x7d' ⟨0, 0, 0, 0⟩) ∧
    parse_str "[1, 2" = .error (.UnclosedDelimiter ']' ⟨0, 0, 0, 0⟩) ∧
    parse_str "  \x7ba: 1" = .error (.UnclosedDelimiter '\x7d' ⟨0, 0, 2, 2⟩) ∧
    parse_str "\n[1, 2" = .error (.UnclosedDelimiter ']' ⟨0, 1, 0, 1⟩) :=
  ⟨rfl, rfl, rfl, rfl⟩

/-- C5 (confirmed): `"-9_000"` parses to `Num "-9_000"` (minus fused with the
following number token), minimally spelling that value reproduces the exact
text, and a dash not followed by a number token is an `UnexpectedToken`
error at the dash's location. -/
theorem c5_negative_number :
    parse_str "-9_000" = .ok (Value.Num "-9_000".toList) ∧
    min_spell (Value.Num "-9_000".toList) = "-9_000".toList ∧
    (∀ (f : Nat) (l l0 : Loc) (rest : List RichToken),
      (∀ n, rest.head?.map RichToken.inner ≠ some (Token.Num n)) →
      next_value (f + 1) ⟨⟨Token.Dash, l⟩ :: rest, l0⟩ =
        some (.error (.UnexpectedToken Token.Dash l), ⟨rest, l⟩)) := by
  refine ⟨rfl, rfl, ?_⟩
  intro f l l0 rest h
  cases rest with
  | nil => simp [next_value, TokenIter.next, TokenIter.peek]
  | cons rt rest2 =>
    have hn : ∀ n, rt.inner ≠ Token.Num n := by
      intro n hne
      exact h n (by simp [hne])
    obtain ⟨t, lt⟩ := rt
    cases t with
    | Num n => exact absurd rfl (hn n)
    | Sym s' => simp [next_value, TokenIter.next, TokenIter.peek]
    | Str s' => simp [next_value, TokenIter.next, TokenIter.peek]
    | Comment s' => simp [next_value, TokenIter.next, TokenIter.peek]
    | LBrace => simp [next_value, TokenIter.next, TokenIter.peek]
    | RBrace => simp [next_value, TokenIter.next, TokenIter.peek]
    | LBrack => simp [next_value, TokenIter.next, TokenIter.peek]
    | RBrack => simp [next_value, TokenIter.next, TokenIter.peek]
    | Colon => simp [next_value, TokenIter.next, TokenIter.peek]
    | Comma => simp [next_value, TokenIter.next, TokenIter.peek]
    | Dash => simp [next_value, TokenIter.next, TokenIter.peek]

/-- C5 witness: the dash-not-followed-by-number branch at a concrete input. -/
theorem c5_witness :
    (∀ n, (([] : List RichToken)).head?.map RichToken.inner ≠ some (Token.Num n)) ∧
    next_value 1 ⟨[⟨Token.Dash, ⟨0, 0, 0, 0⟩⟩], ⟨0, 0, 0, 0⟩⟩ =
      some (.error (.UnexpectedToken Token.Dash ⟨0, 0, 0, 0⟩), ⟨[], ⟨0, 0, 0, 0⟩⟩) :=
  ⟨by simp, c5_negative_number.2.2 0 ⟨0, 0, 0, 0⟩ ⟨0, 0, 0, 0⟩ [] (by simp)⟩


/-- C3 (corrected): in key position inside an object, a string, number, or
symbol token is accepted with its text as the key; a comment token is
rejected with `UnexpectedToken`; but every *other* token kind is not an
error — it is accepted with its canonical spelling as the key. -/
theorem c3_key_position_tokens :
    (∀ (kt : Token) (s : List Char), (kt = .Str s ∨ kt = .Num s ∨ kt = .Sym s) →
      ∀ (f : Nat) (n : List Char) (l0 l1 l2 l3 : Loc) (rest : List RichToken),
      next_key_value_pair (f + 2) ⟨⟨kt, l1⟩ :: ⟨.Colon, l2⟩ :: ⟨.Num n, l3⟩ :: rest, l0⟩ =
        some (.ok (some (s, Value.Num n)), ⟨rest, l3⟩)) ∧
    (∀ (c : List Char) (f : Nat) (l0 l1 : Loc) (rest : List RichToken),
      next_key_value_pair (f + 1) ⟨⟨.Comment c, l1⟩ :: rest, l0⟩ =
        some (.error (.UnexpectedToken (.Comment c) l1), ⟨rest, l1⟩)) ∧
    (∀ (t : Token), t ∈ [Token.LBrace, .RBrace, .LBrack, .RBrack, .Colon, .Comma, .Dash] →
      ∀ (f : Nat) (n : List Char) (l0 l1 l2 l3 : Loc) (rest : List RichToken),
      next_key_value_pair (f + 2) ⟨⟨t, l1⟩ :: ⟨.Colon, l2⟩ :: ⟨.Num n, l3⟩ :: rest, l0⟩ =
        some (.ok (some (t.spelling, Value.Num n)), ⟨rest, l3⟩)) := by
  refine ⟨?_, ?_, ?_⟩
  · rintro kt s (rfl | rfl | rfl) f n l0 l1 l2 l3 rest <;>
      simp [next_key_value_pair, next_value, TokenIter.next]
  · intro c f l0 l1 rest
    simp [next_key_value_pair, TokenIter.next]
  · intro t ht f n l0 l1 l2 l3 rest
    fin_cases ht <;> simp [next_key_value_pair, next_value, TokenIter.next, Token.spelling]

/-- C3 counterexample: a colon token in key position is not an
`UnexpectedToken` error — `\x7b:: 1\x7d` parses, with the colon's spelling as the
key. -/
theorem c3_counterexample :
    parse_str "\x7b:: 1\x7d" = .ok (Value.Obj [([':'], Value.Num ['1'])]) := rfl

/-- C3 witness: a dash token in key position, accepted with spelling `-`. -/
theorem c3_witness :
    (Token.Dash ∈ [Token.LBrace, .RBrace, .LBrack, .RBrack, .Colon, .Comma, .Dash]) ∧
    next_key_value_pair 2
        ⟨[⟨Token.Dash, ⟨0, 0, 0, 0⟩⟩, ⟨.Colon, ⟨0, 0, 1, 1⟩⟩, ⟨.Num ['7'], ⟨0, 0, 2, 2⟩⟩],
          ⟨0, 0, 0, 0⟩⟩ =
      some (.ok (some (['-'], Value.Num ['7'])), ⟨[], ⟨0, 0, 2, 2⟩⟩) :=
  ⟨by simp, c3_key_position_tokens.2.2 Token.Dash (by simp) 0 ['7']
    ⟨0, 0, 0, 0⟩ ⟨0, 0, 0, 0⟩ ⟨0, 0, 1, 1⟩ ⟨0, 0, 2, 2⟩ []⟩

/-- C9 (confirmed): whenever parsing a list element fails — for any reason —
the element's own error is discarded and the list parse reports
`UnclosedDelimiter(']')` at the opening bracket's location.  Conjunct one:
every error escaping `list_loop` is that error; conjunct two: lifted to
`next_value` on a stream starting with `[`; conjunct three and four: a
concrete input whose element error (`InvalidValue` on `nope`) is replaced. -/
theorem c9_list_error_masking :
    (∀ (f : Nat) (oloc : Loc) (acc : List Value) (it itE : TokenIter) (e : GonError),
      list_loop f oloc acc it = some (.error e, itE) → e = .UnclosedDelimiter ']' oloc) ∧
    (∀ (f : Nat) (it itE : TokenIter) (rt : RichToken) (rest' : List RichToken) (e : GonError),
      it.rest = rt :: rest' → rt.inner = .LBrack →
      next_value f it = some (.error e, itE) → e = .UnclosedDelimiter ']' rt.loc) ∧
    parse_str "[true, nope]" = .error (.UnclosedDelimiter ']' ⟨0, 0, 0, 0⟩) ∧
    parse_str "nope" = .error (.InvalidValue "nope".toList ⟨0, 0, 0, 0⟩) := by
  have part1 : ∀ (f : Nat) (oloc : Loc) (acc : List Value) (it itE : TokenIter) (e : GonError),
      list_loop f oloc acc it = some (.error e, itE) → e = .UnclosedDelimiter ']' oloc := by
    intro f
    induction f with
    | zero => intro oloc acc it itE e h; simp [list_loop] at h
    | succ f ih =>
      intro oloc acc it itE e h
      by_cases hpk : it.peek.map RichToken.inner = some Token.RBrack
      · simp [list_loop, hpk] at h
      · simp only [list_loop, hpk, if_false] at h
        cases hnv : next_value f it with
        | none => rw [hnv] at h; simp at h
        | some p =>
          obtain ⟨r, itE'⟩ := p
          cases r with
          | error e' =>
            rw [hnv] at h
            simp at h
            exact h.1.symm
          | ok v =>
            rw [hnv] at h
            exact ih oloc (acc ++ [v]) (consume_optional_comma itE') itE e h
  refine ⟨part1, ?_, rfl, rfl⟩
  intro f it itE rt rest' e h1 h2 h3
  cases f with
  | zero => simp [next_value] at h3
  | succ f =>
    obtain ⟨itrest, itloc⟩ := it
    simp only at h1
    subst h1
    obtain ⟨t, lt⟩ := rt
    simp only at h2
    subst h2
    simp only [next_value, TokenIter.next] at h3
    exact part1 f lt [] ⟨rest', lt⟩ itE e h3

/-- C9 witness: a list whose single element errors (`UnexpectedToken` on a
colon); the surfaced error is the unclosed-bracket error. -/
theorem c9_witness :
    list_loop 2 ⟨0, 0, 0, 0⟩ [] ⟨[⟨Token.Colon, ⟨0, 0, 1, 1⟩⟩], ⟨0, 0, 0, 0⟩⟩ =
      some (.error (.UnclosedDelimiter ']' ⟨0, 0, 0, 0⟩), ⟨[], ⟨0, 0, 1, 1⟩⟩) ∧
    GonError.UnclosedDelimiter ']' ⟨0, 0, 0, 0⟩ = .UnclosedDelimiter ']' ⟨0, 0, 0, 0⟩ :=
  ⟨rfl, c9_list_error_masking.1 2 ⟨0, 0, 0, 0⟩ [] ⟨[⟨Token.Colon, ⟨0, 0, 1, 1⟩⟩], ⟨0, 0, 0, 0⟩⟩
    ⟨[], ⟨0, 0, 1, 1⟩⟩ (.UnclosedDelimiter ']' ⟨0, 0, 0, 0⟩) rfl⟩

/-- C10 (confirmed): an object that binds the same key twice parses without
error, and the resulting object maps the key to the value of the last
occurrence in source order — shown for every key text and every pair of
number literals at the token level, and on the concrete input
`\x7ba: 1, a: 2\x7d`. -/
theorem c10_duplicate_keys :
    (∀ (f : Nat) (k s1 s2 : List Char) (lb l1 l2 l3 l4 l5 l6 l7 l8 l0 : Loc)
      (rest : List RichToken),
      next_value (f + 8) ⟨⟨Token.LBrace, lb⟩ :: ⟨.Sym k, l1⟩ :: ⟨.Colon, l2⟩ ::
          ⟨.Num s1, l3⟩ :: ⟨.Comma, l4⟩ :: ⟨.Sym k, l5⟩ :: ⟨.Colon, l6⟩ ::
          ⟨.Num s2, l7⟩ :: ⟨.RBrace, l8⟩ :: rest, l0⟩ =
        some (.ok (Value.Obj [(k, Value.Num s2)]), ⟨rest, l8⟩)) ∧
    parse_str "\x7ba: 1, a: 2\x7d" = .ok (Value.Obj [("a".toList, Value.Num ['2'])]) := by
  refine ⟨?_, rfl⟩
  intro f k s1 s2 lb l1 l2 l3 l4 l5 l6 l7 l8 l0 rest
  simp [next_value, obj_loop, next_key_value_pair, consume_optional_comma,
    TokenIter.next, TokenIter.peek, TokenIter.advance, MapT.insert]


/-! ## Closed forms of the renderers' loops -/

theorem spell_items_oneline_eq (cfg : SpellConfig) (i : Nat) :
    ∀ (xs : List Value) (buf : List Char), xs ≠ [] →
      spell_items xs buf i cfg true =
        buf ++ joinSep [',', ' '] (xs.map (fun x => spell0 x [] 0 cfg)) := by
  intro xs
  induction xs with
  | nil => intro buf h; exact absurd rfl h
  | cons x rest ih =>
    intro buf _
    cases rest with
    | nil =>
      show spell_items [] (spell0 x buf 0 cfg) i cfg true = _
      show spell0 x buf 0 cfg = _
      rw [spell0_buf]
      rfl
    | cons y t =>
      show spell_items (y :: t) (spell0 x buf 0 cfg ++ [',', ' ']) i cfg true = _
      rw [ih _ (by simp), spell0_buf]
      show _ = buf ++ (spell0 x [] 0 cfg ++ [',', ' '] ++
        joinSep [',', ' '] (List.map (fun x => spell0 x [] 0 cfg) (y :: t)))
      simp

theorem spell_items_multiline_eq (cfg : SpellConfig) (i : Nat) :
    ∀ (xs : List Value) (buf : List Char), xs ≠ [] →
      spell_items xs buf i cfg false =
        buf ++ joinSep [',', '\n'] (xs.map (fun x =>
            gen_indent (i + cfg.indent_amount) cfg ++ spell0 x [] (i + cfg.indent_amount) cfg)) ++
          (if cfg.trailing_commas then [',', '\n'] else ['\n']) := by
  intro xs
  induction xs with
  | nil => intro buf h; exact absurd rfl h
  | cons x rest ih =>
    intro buf _
    cases rest with
    | nil =>
      show spell_items []
        ((if cfg.trailing_commas || !([] : List Value).isEmpty then
            spell0 x (apply_indent buf (i + cfg.indent_amount) cfg) (i + cfg.indent_amount) cfg ++ [',']
          else
            spell0 x (apply_indent buf (i + cfg.indent_amount) cfg) (i + cfg.indent_amount) cfg) ++ ['\n'])
        i cfg false = _
      rw [spell0_buf]
      cases htc : cfg.trailing_commas <;> simp [htc, apply_indent, joinSep, spell_items]
    | cons y t =>
      show spell_items (y :: t)
        ((if cfg.trailing_commas || !((y :: t) : List Value).isEmpty then
            spell0 x (apply_indent buf (i + cfg.indent_amount) cfg) (i + cfg.indent_amount) cfg ++ [',']
          else
            spell0 x (apply_indent buf (i + cfg.indent_amount) cfg) (i + cfg.indent_amount) cfg) ++ ['\n'])
        i cfg false = _
      have hcond : (cfg.trailing_commas || !((y :: t) : List Value).isEmpty) = true := by simp
      rw [hcond]
      simp only [if_true]
      rw [ih _ (by simp), spell0_buf]
      simp [apply_indent, joinSep]

theorem min_spell_pairs_eq :
    ∀ m, min_spell_pairs m = joinSep [','] (m.map (fun kv =>
      (if key_needs_quoting kv.1 then '"' :: (kv.1 ++ ['"']) else kv.1) ++ [':'] ++
        min_spell kv.2)) := by
  intro m
  induction m with
  | nil => rfl
  | cons kv rest ih =>
    obtain ⟨k, v⟩ := kv
    cases rest with
    | nil =>
      show (if key_needs_quoting k then '"' :: (k ++ ['"']) else k) ++ [':'] ++ min_spell v
          ++ [] ++ min_spell_pairs [] = _
      simp [min_spell_pairs, joinSep]
    | cons kv2 t =>
      show (if key_needs_quoting k then '"' :: (k ++ ['"']) else k) ++ [':'] ++ min_spell v
          ++ [','] ++ min_spell_pairs (kv2 :: t) = _
      rw [ih]
      show _ = ((if key_needs_quoting k then '"' :: (k ++ ['"']) else k) ++ [':'] ++ min_spell v)
          ++ [','] ++ joinSep [','] (List.map (fun kv =>
            (if key_needs_quoting kv.1 then '"' :: (kv.1 ++ ['"']) else kv.1) ++ [':'] ++
              min_spell kv.2) (kv2 :: t))
      simp

theorem spell_pairs_eq (cfg : SpellConfig) (ni : Nat) :
    ∀ (m : List (List Char × Value)) (buf : List Char), m ≠ [] →
      spell_pairs m buf ni cfg =
        buf ++ joinSep [',', '\n'] (m.map (fun kv =>
            gen_indent ni cfg ++
              (if key_needs_quoting kv.1 then '"' :: (kv.1 ++ ('"' :: ':' :: [' '])) else kv.1 ++ [':', ' ']) ++
              spell0 kv.2 [] ni cfg)) ++
          (if cfg.trailing_commas then [',', '\n'] else ['\n']) := by
  intro m
  induction m with
  | nil => intro buf h; exact absurd rfl h
  | cons kv rest ih =>
    intro buf _
    obtain ⟨k, v⟩ := kv
    cases rest with
    | nil =>
      show spell_pairs []
        (spell0 v (apply_indent buf ni cfg ++
            (if key_needs_quoting k then '"' :: (k ++ ('"' :: ':' :: [' '])) else k ++ [':', ' '])) ni cfg
          ++ (if !cfg.trailing_commas && ([] : List (List Char × Value)).isEmpty then ['\n'] else [',', '\n']))
        ni cfg = _
      rw [spell0_buf]
      cases htc : cfg.trailing_commas <;> simp [htc, apply_indent, joinSep, spell_pairs]
    | cons kv2 t =>
      show spell_pairs (kv2 :: t)
        (spell0 v (apply_indent buf ni cfg ++
            (if key_needs_quoting k then '"' :: (k ++ ('"' :: ':' :: [' '])) else k ++ [':', ' '])) ni cfg
          ++ (if !cfg.trailing_commas && ((kv2 :: t) : List (List Char × Value)).isEmpty then ['\n'] else [',', '\n']))
        ni cfg = _
      have hcond : (!cfg.trailing_commas && ((kv2 :: t) : List (List Char × Value)).isEmpty) = false := by
        simp
      rw [hcond]
      simp only [Bool.false_eq_true, if_false]
      rw [ih _ (by simp), spell0_buf]
      simp [apply_indent, joinSep]


/-- The one-line heuristic's probe is the `isContainer` check. -/
theorem find_cont_eq (xs : List Value) :
    (xs.find? (fun v => match v with | Value.List _ => true | Value.Obj _ => true | _ => false)) =
      xs.find? isContainer := by
  have : (fun v => match v with | Value.List _ => true | Value.Obj _ => true | _ => false) =
      isContainer := by
    funext v
    cases v <;> rfl
  rw [this]

/-- C6 (confirmed): the empty list renders as `[]`; a nonempty list of at
most five elements, none of which is an object or list, renders on one line
with `", "` separators and no trailing comma; a list of six or more
elements, or with at least one container element, renders multi-line, one
element per line at `current_indent + indent_amount`, the trailing comma
controlled by `trailing_commas`, and the closing bracket at
`current_indent`. -/
theorem c6_list_layout (xs : List Value) (buf : List Char) (i : Nat) (cfg : SpellConfig) :
    (spell0 (Value.List []) buf i cfg = buf ++ ['[', ']']) ∧
    (xs ≠ [] → xs.length ≤ 5 → xs.all (fun x => !isContainer x) = true →
      spell0 (Value.List xs) buf i cfg =
        buf ++ ['['] ++ joinSep [',', ' '] (xs.map (fun x => spell0 x [] 0 cfg)) ++ [']']) ∧
    ((5 < xs.length ∨ xs.any isContainer = true) →
      spell0 (Value.List xs) buf i cfg =
        buf ++ ['[', '\n'] ++
          joinSep [',', '\n'] (xs.map (fun x =>
            gen_indent (i + cfg.indent_amount) cfg ++ spell0 x [] (i + cfg.indent_amount) cfg)) ++
          (if cfg.trailing_commas then [',', '\n'] else ['\n']) ++
          gen_indent i cfg ++ [']']) := by
  refine ⟨by simp [spell0], ?_, ?_⟩
  · intro hne h5 hflat
    have hfind : xs.find? isContainer = none := by
      rw [List.find?_eq_none]
      intro x hx
      have := List.all_eq_true.mp hflat x hx
      simp at this
      simp [this]
    simp only [spell0, List.isEmpty_eq_true, hne, if_false, find_cont_eq, hfind,
      Option.isNone_none, Bool.and_true, decide_eq_true_eq, h5, decide_True, if_true]
    rw [spell_items_oneline_eq cfg i xs _ hne]
  · intro hcase
    have hne : xs ≠ [] := by
      rcases hcase with h | h
      · intro hx; subst hx; simp at h
      · intro hx; subst hx; simp at h
    have hone : (decide (xs.length ≤ 5) && (xs.find? isContainer).isNone) = false := by
      rcases hcase with h | h
      · have : decide (xs.length ≤ 5) = false := by simp; omega
        simp [this]
      · obtain ⟨x, hx, hcx⟩ := List.any_eq_true.mp h
        rcases hfind : xs.find? isContainer with _ | y
        · rw [List.find?_eq_none] at hfind
          exact absurd hcx (by simpa using hfind x hx)
        · simp [hfind]
    simp only [spell0, List.isEmpty_eq_true, hne, if_false, find_cont_eq, hone,
      Bool.false_eq_true, if_false]
    rw [spell_items_multiline_eq cfg i xs _ hne]
    simp [apply_indent]

/-- C6 witness: a two-element flat list, rendered on one line. -/
theorem c6_witness :
    (([Value.Num ['1'], Value.Num ['2']] : List Value) ≠ [] ∧
      ([Value.Num ['1'], Value.Num ['2']] : List Value).length ≤ 5 ∧
      ([Value.Num ['1'], Value.Num ['2']] : List Value).all (fun x => !isContainer x) = true) ∧
    spell0 (Value.List [Value.Num ['1'], Value.Num ['2']]) [] 0 SpellConfig.default =
      [] ++ ['['] ++ joinSep [',', ' ']
        (([Value.Num ['1'], Value.Num ['2']] : List Value).map
          (fun x => spell0 x [] 0 SpellConfig.default)) ++ [']'] :=
  ⟨⟨by simp, by decide, by decide⟩,
    (c6_list_layout [Value.Num ['1'], Value.Num ['2']] [] 0 SpellConfig.default).2.1
      (by simp) (by decide) (by decide)⟩

/-- C8 (confirmed): the key-quoting decision is the tokenizer probe — a key
is quoted exactly when re-lexing its bare text fails or yields more than one
token; a key lexing to a single token is left bare; and both renderers emit
keys through that same decision (`key_needs_quoting`), as their closed
forms show. -/
theorem c8_key_quoting :
    (∀ (k : List Char) (e : KlexError), lex k 0 = .error e → key_needs_quoting k = true) ∧
    (∀ (k : List Char) (ts : List RichToken), lex k 0 = .ok ts →
      key_needs_quoting k = decide (1 < ts.length)) ∧
    (∀ (k : List Char) (rt : RichToken), lex k 0 = .ok [rt] → key_needs_quoting k = false) ∧
    (∀ m, min_spell (Value.Obj m) =
      '\x7b' :: (joinSep [','] (m.map (fun kv =>
        (if key_needs_quoting kv.1 then '"' :: (kv.1 ++ ['"']) else kv.1) ++ [':'] ++
          min_spell kv.2)) ++ ['\x7d'])) ∧
    (∀ (m : List (List Char × Value)) (buf : List Char) (i : Nat) (cfg : SpellConfig),
      m ≠ [] →
      spell0 (Value.Obj m) buf i cfg =
        buf ++ '\x7b' :: '\n' :: (joinSep [',', '\n'] (m.map (fun kv =>
            gen_indent (i + cfg.indent_amount) cfg ++
              (if key_needs_quoting kv.1 then '"' :: (kv.1 ++ ('"' :: ':' :: [' ']))
                else kv.1 ++ [':', ' ']) ++
              spell0 kv.2 [] (i + cfg.indent_amount) cfg)) ++
          (if cfg.trailing_commas then [',', '\n'] else ['\n']) ++
          gen_indent i cfg ++ ['\x7d'])) := by
  refine ⟨?_, ?_, ?_, ?_, ?_⟩
  · intro k e h
    simp [key_needs_quoting, h]
  · intro k ts h
    simp [key_needs_quoting, h]
  · intro k rt h
    simp [key_needs_quoting, h]
  · intro m
    show '\x7b' :: (min_spell_pairs m ++ ['\x7d']) = _
    rw [min_spell_pairs_eq]
  · intro m buf i cfg hne
    show (apply_indent (spell_pairs m (buf ++ ('\x7b' :: ['\n'])) (i + cfg.indent_amount) cfg)
        i cfg) ++ ['\x7d'] = _
    rw [spell_pairs_eq cfg (i + cfg.indent_amount) m _ hne]
    simp [apply_indent]

/-- C8 witness: `a b` re-lexes to two tokens so it is quoted; `ab` re-lexes
to one token so it is not; and the minimal spelling of an object with those
two keys takes the closed form with exactly those quoting decisions. -/
theorem c8_witness :
    lex "a b".toList 0 = .ok [⟨Token.Sym ['a'], ⟨0, 0, 0, 0⟩⟩, ⟨Token.Sym ['b'], ⟨0, 0, 2, 2⟩⟩] ∧
    key_needs_quoting "a b".toList = decide
      (1 < ([⟨Token.Sym ['a'], ⟨0, 0, 0, 0⟩⟩, ⟨Token.Sym ['b'], ⟨0, 0, 2, 2⟩⟩] : List RichToken).length) :=
  ⟨rfl, c8_key_quoting.2.1 "a b".toList
    [⟨Token.Sym ['a'], ⟨0, 0, 0, 0⟩⟩, ⟨Token.Sym ['b'], ⟨0, 0, 2, 2⟩⟩] rfl⟩


/-! ## Lexing lemmas: how the modelled tokenizer consumes rendered text -/

theorem symStart_not_digit (c : Char) (h : isSymStart c = true) : c.isDigit = false := by
  simp only [isSymStart, Bool.or_eq_true] at h
  rcases h with h | h
  · simp only [Char.isAlpha, Char.isUpper, Char.isLower, Bool.or_eq_true,
      Bool.and_eq_true, decide_eq_true_eq] at h
    simp only [Char.isDigit]
    rcases h with ⟨h1, h2⟩ | ⟨h1, h2⟩ <;>
      · rw [Bool.and_eq_false_iff]
        right
        rw [decide_eq_false_iff_not]
        intro hle
        exact absurd (UInt32.le_trans h1 hle) (by decide)
  · simp only [decide_eq_true_eq] at h
    subst h
    decide

theorem normalStep_symStart (c : Char) (l : Loc) (h : isSymStart c = true) :
    normalStep c l = .ok ([], .inSym [c] l) := by
  have hd : c.isDigit = false := symStart_not_digit c h
  have n1 : c ≠ ' ' := by intro hEq; rw [hEq] at h; exact absurd h (by decide)
  have n2 : c ≠ '\t' := by intro hEq; rw [hEq] at h; exact absurd h (by decide)
  have n3 : c ≠ '\n' := by intro hEq; rw [hEq] at h; exact absurd h (by decide)
  have n4 : c ≠ '\r' := by intro hEq; rw [hEq] at h; exact absurd h (by decide)
  have n5 : c ≠ '{' := by intro hEq; rw [hEq] at h; exact absurd h (by decide)
  have n6 : c ≠ '}' := by intro hEq; rw [hEq] at h; exact absurd h (by decide)
  have n7 : c ≠ '[' := by intro hEq; rw [hEq] at h; exact absurd h (by decide)
  have n8 : c ≠ ']' := by intro hEq; rw [hEq] at h; exact absurd h (by decide)
  have n9 : c ≠ ':' := by intro hEq; rw [hEq] at h; exact absurd h (by decide)
  have n10 : c ≠ ',' := by intro hEq; rw [hEq] at h; exact absurd h (by decide)
  have n11 : c ≠ '-' := by intro hEq; rw [hEq] at h; exact absurd h (by decide)
  have n12 : c ≠ '"' := by intro hEq; rw [hEq] at h; exact absurd h (by decide)
  simp [normalStep, isWs, h, hd, n1, n2, n3, n4, n5, n6, n7, n8, n9, n10, n11, n12]

theorem normalStep_digit (c : Char) (l : Loc) (h : c.isDigit = true) :
    normalStep c l = .ok ([], .inNum [c] l) := by
  have n1 : c ≠ ' ' := by intro hEq; rw [hEq] at h; exact absurd h (by decide)
  have n2 : c ≠ '\t' := by intro hEq; rw [hEq] at h; exact absurd h (by decide)
  have n3 : c ≠ '\n' := by intro hEq; rw [hEq] at h; exact absurd h (by decide)
  have n4 : c ≠ '\r' := by intro hEq; rw [hEq] at h; exact absurd h (by decide)
  have n5 : c ≠ '{' := by intro hEq; rw [hEq] at h; exact absurd h (by decide)
  have n6 : c ≠ '}' := by intro hEq; rw [hEq] at h; exact absurd h (by decide)
  have n7 : c ≠ '[' := by intro hEq; rw [hEq] at h; exact absurd h (by decide)
  have n8 : c ≠ ']' := by intro hEq; rw [hEq] at h; exact absurd h (by decide)
  have n9 : c ≠ ':' := by intro hEq; rw [hEq] at h; exact absurd h (by decide)
  have n10 : c ≠ ',' := by intro hEq; rw [hEq] at h; exact absurd h (by decide)
  have n11 : c ≠ '-' := by intro hEq; rw [hEq] at h; exact absurd h (by decide)
  have n12 : c ≠ '"' := by intro hEq; rw [hEq] at h; exact absurd h (by decide)
  simp [normalStep, isWs, h, n1, n2, n3, n4, n5, n6, n7, n8, n9, n10, n11, n12]

/-- One scanner step, unfolded. -/
theorem lexM_step (m : LexMode) (c : Char) (l : Loc) (rest : List Char)
    (ts : List RichToken) (m' : LexMode) (h : stepChar m c l = .ok (ts, m')) :
    lexM (c :: rest) l m = (lexM rest (l.adv c) m').map (ts ++ ·) := by
  simp [lexM, h]

theorem advs_append (l : Loc) (a b : List Char) :
    Loc.advs l (a ++ b) = Loc.advs (Loc.advs l a) b := by
  simp [Loc.advs, List.foldl_append]

/-- Leading whitespace is skipped. -/
theorem lexM_ws (w : List Char) :
    ∀ (rest : List Char) (l : Loc), w.all isWs = true →
      lexM (w ++ rest) l .normal = lexM rest (Loc.advs l w) .normal := by
  induction w with
  | nil => intro rest l _; simp [Loc.advs]
  | cons c w' ih =>
    intro rest l hall
    simp only [List.all_cons, Bool.and_eq_true] at hall
    have hstep : stepChar .normal c l = .ok ([], .normal) := by
      simp [stepChar, normalStep, hall.1]
    rw [List.cons_append, lexM_step _ _ _ _ _ _ hstep, ih rest (l.adv c) hall.2]
    have : Loc.advs l (c :: w') = Loc.advs (l.adv c) w' := by simp [Loc.advs]
    rw [this]
    cases lexM rest (Loc.advs (l.adv c) w') LexMode.normal <;> simp [Except.map]


/-- Symbol-continuation characters accumulate. -/
theorem lexM_sym_cont (ks : List Char) :
    ∀ (rest : List Char) (l : Loc) (acc : List Char) (start : Loc),
      ks.all isSymChar = true →
      lexM (ks ++ rest) l (.inSym acc start) =
        lexM rest (Loc.advs l ks) (.inSym (acc ++ ks) start) := by
  induction ks with
  | nil => intro rest l acc start _; simp [Loc.advs]
  | cons c ks' ih =>
    intro rest l acc start hall
    simp only [List.all_cons, Bool.and_eq_true] at hall
    have hstep : stepChar (.inSym acc start) c l = .ok ([], .inSym (acc ++ [c]) start) := by
      simp [stepChar, hall.1]
    rw [List.cons_append, lexM_step _ _ _ _ _ _ hstep, ih rest (l.adv c) (acc ++ [c]) start hall.2]
    have hl : Loc.advs l (c :: ks') = Loc.advs (l.adv c) ks' := by simp [Loc.advs]
    have hacc : acc ++ c :: ks' = (acc ++ [c]) ++ ks' := by simp
    rw [hl, hacc]
    cases lexM rest (Loc.advs (l.adv c) ks') (.inSym ((acc ++ [c]) ++ ks') start) <;>
      simp [Except.map]

/-- A pending symbol token is emitted at a non-continuation boundary. -/
theorem lexM_sym_flush (rest : List Char) (l : Loc) (acc : List Char) (start : Loc)
    (hb : ∀ c, rest.head? = some c → isSymChar c = false) :
    lexM rest l (.inSym acc start) =
      (lexM rest l .normal).map (⟨Token.Sym acc, start⟩ :: ·) := by
  cases rest with
  | nil => simp [lexM, lexFlush, Except.map]
  | cons c r2 =>
    have hcs := hb c rfl
    simp only [lexM, stepChar, hcs, Bool.false_eq_true, if_false]
    cases hn : normalStep c l with
    | error e => simp [Except.map]
    | ok tm =>
      obtain ⟨ts, m'⟩ := tm
      show Except.map (fun x => (⟨Token.Sym acc, start⟩ :: ts) ++ x) (lexM r2 (l.adv c) m') =
        Except.map (fun x => ⟨Token.Sym acc, start⟩ :: x)
          (Except.map (fun x => ts ++ x) (lexM r2 (l.adv c) m'))
      cases lexM r2 (l.adv c) m' <;> simp [Except.map]

/-- A whole symbol token. -/
theorem lexM_sym (k rest : List Char) (l : Loc) (hk : goodSym k = true)
    (hb : ∀ c, rest.head? = some c → isSymChar c = false) :
    lexM (k ++ rest) l .normal =
      (lexM rest (Loc.advs l k) .normal).map (⟨Token.Sym k, l⟩ :: ·) := by
  cases k with
  | nil => simp [goodSym] at hk
  | cons c ks =>
    simp only [goodSym, Bool.and_eq_true] at hk
    have hstep : stepChar .normal c l = .ok ([], .inSym [c] l) :=
      normalStep_symStart c l hk.1
    rw [List.cons_append, lexM_step _ _ _ _ _ _ hstep,
      lexM_sym_cont ks rest (l.adv c) [c] l hk.2, lexM_sym_flush rest _ _ _ hb]
    have hl : Loc.advs l (c :: ks) = Loc.advs (l.adv c) ks := by simp [Loc.advs]
    rw [hl]
    cases lexM rest (Loc.advs (l.adv c) ks) .normal <;> simp [Except.map]

/-- Number-continuation characters accumulate. -/
theorem lexM_num_cont (ks : List Char) :
    ∀ (rest : List Char) (l : Loc) (acc : List Char) (start : Loc),
      ks.all isNumChar = true →
      lexM (ks ++ rest) l (.inNum acc start) =
        lexM rest (Loc.advs l ks) (.inNum (acc ++ ks) start) := by
  induction ks with
  | nil => intro rest l acc start _; simp [Loc.advs]
  | cons c ks' ih =>
    intro rest l acc start hall
    simp only [List.all_cons, Bool.and_eq_true] at hall
    have hstep : stepChar (.inNum acc start) c l = .ok ([], .inNum (acc ++ [c]) start) := by
      simp [stepChar, hall.1]
    rw [List.cons_append, lexM_step _ _ _ _ _ _ hstep, ih rest (l.adv c) (acc ++ [c]) start hall.2]
    have hl : Loc.advs l (c :: ks') = Loc.advs (l.adv c) ks' := by simp [Loc.advs]
    have hacc : acc ++ c :: ks' = (acc ++ [c]) ++ ks' := by simp
    rw [hl, hacc]
    cases lexM rest (Loc.advs (l.adv c) ks') (.inNum ((acc ++ [c]) ++ ks') start) <;>
      simp [Except.map]

/-- A pending number token is emitted at a non-continuation boundary. -/
theorem lexM_num_flush (rest : List Char) (l : Loc) (acc : List Char) (start : Loc)
    (hb : ∀ c, rest.head? = some c → isNumChar c = false) :
    lexM rest l (.inNum acc start) =
      (lexM rest l .normal).map (⟨Token.Num acc, start⟩ :: ·) := by
  cases rest with
  | nil => simp [lexM, lexFlush, Except.map]
  | cons c r2 =>
    have hcs := hb c rfl
    simp only [lexM, stepChar, hcs, Bool.false_eq_true, if_false]
    cases hn : normalStep c l with
    | error e => simp [Except.map]
    | ok tm =>
      obtain ⟨ts, m'⟩ := tm
      show Except.map (fun x => (⟨Token.Num acc, start⟩ :: ts) ++ x) (lexM r2 (l.adv c) m') =
        Except.map (fun x => ⟨Token.Num acc, start⟩ :: x)
          (Except.map (fun x => ts ++ x) (lexM r2 (l.adv c) m'))
      cases lexM r2 (l.adv c) m' <;> simp [Except.map]

/-- A whole number token. -/
theorem lexM_num (k rest : List Char) (l : Loc) (hk : numCore k = true)
    (hb : ∀ c, rest.head? = some c → isNumChar c = false) :
    lexM (k ++ rest) l .normal =
      (lexM rest (Loc.advs l k) .normal).map (⟨Token.Num k, l⟩ :: ·) := by
  cases k with
  | nil => simp [numCore] at hk
  | cons c ks =>
    simp only [numCore, Bool.and_eq_true] at hk
    have hstep : stepChar .normal c l = .ok ([], .inNum [c] l) :=
      normalStep_digit c l hk.1
    rw [List.cons_append, lexM_step _ _ _ _ _ _ hstep,
      lexM_num_cont ks rest (l.adv c) [c] l hk.2, lexM_num_flush rest _ _ _ hb]
    have hl : Loc.advs l (c :: ks) = Loc.advs (l.adv c) ks := by simp [Loc.advs]
    rw [hl]
    cases lexM rest (Loc.advs (l.adv c) ks) .normal <;> simp [Except.map]


/-- The string scanner undoes `escapeStr` up to the closing quote. -/
theorem lexM_str_body (s : List Char) :
    ∀ (rest : List Char) (l : Loc) (acc : List Char) (start : Loc),
      lexM (escapeStr s ++ ('"' :: rest)) l (.inStr acc false start) =
        (lexM rest ((Loc.advs l (escapeStr s)).adv '"') .normal).map
          (⟨Token.Str (acc ++ s), start⟩ :: ·) := by
  induction s with
  | nil =>
    intro rest l acc start
    have hstep : stepChar (.inStr acc false start) '"' l =
        .ok ([⟨Token.Str acc, start⟩], .normal) := by
      simp [stepChar]
    show lexM ('"' :: rest) l (.inStr acc false start) = _
    rw [lexM_step _ _ _ _ _ _ hstep]
    show _ = (lexM rest ((Loc.advs l []).adv '"') .normal).map _
    have hl : Loc.advs l ([] : List Char) = l := rfl
    rw [hl]
    cases lexM rest (l.adv '"') .normal <;> simp [Except.map]
  | cons c s' ih =>
    intro rest l acc start
    have hesc : escapeStr (c :: s') = escapeChar c ++ escapeStr s' := by
      simp [escapeStr]
    rw [hesc]
    have key : ∀ (e : Char), unescape e = some c →
        lexM (('\\' :: e :: escapeStr s') ++ ('"' :: rest)) l (.inStr acc false start) =
          (lexM rest ((Loc.advs l ('\\' :: e :: escapeStr s')).adv '"') .normal).map
            (⟨Token.Str (acc ++ c :: s'), start⟩ :: ·) := by
      intro e hue
      have hstep1 : stepChar (.inStr acc false start) '\\' l =
          .ok ([], .inStr acc true start) := by
        simp [stepChar]
      have hstep2 : stepChar (.inStr acc true start) e (l.adv '\\') =
          .ok ([], .inStr (acc ++ [c]) false start) := by
        simp [stepChar, hue]
      rw [List.cons_append, List.cons_append, lexM_step _ _ _ _ _ _ hstep1,
        lexM_step _ _ _ _ _ _ hstep2, ih rest _ (acc ++ [c]) start]
      have hl : Loc.advs l ('\\' :: e :: escapeStr s') =
          Loc.advs ((l.adv '\\').adv e) (escapeStr s') := by
        simp [Loc.advs]
      rw [hl]
      have hacc : acc ++ [c] ++ s' = acc ++ c :: s' := by simp
      rw [hacc]
      cases lexM rest ((Loc.advs ((l.adv '\\').adv e) (escapeStr s')).adv '"') .normal <;>
        simp [Except.map]
    by_cases h1 : c = '"'
    · subst h1
      exact key '"' (by decide)
    by_cases h2 : c = '\\'
    · subst h2
      exact key '\\' (by decide)
    by_cases h3 : c = '\n'
    · subst h3
      exact key 'n' (by decide)
    by_cases h4 : c = '\t'
    · subst h4
      exact key 't' (by decide)
    by_cases h5 : c = '\r'
    · subst h5
      exact key 'r' (by decide)
    · have hec : escapeChar c = [c] := by
        simp [escapeChar, h1, h2, h3, h4, h5]
      rw [hec]
      have hstep : stepChar (.inStr acc false start) c l =
          .ok ([], .inStr (acc ++ [c]) false start) := by
        simp [stepChar, h1, h2]
      simp only [List.cons_append, List.nil_append]
      rw [lexM_step _ _ _ _ _ _ hstep, ih rest _ (acc ++ [c]) start]
      have hl : Loc.advs l (c :: escapeStr s') = Loc.advs (l.adv c) (escapeStr s') := by
        simp [Loc.advs]
      rw [hl]
      have hacc : acc ++ [c] ++ s' = acc ++ c :: s' := by simp
      rw [hacc]
      cases lexM rest ((Loc.advs (l.adv c) (escapeStr s')).adv '"') .normal <;>
        simp [Except.map]

/-- A whole string literal as both renderers emit it
(`klex::Token::Str(s).spelling()`). -/
theorem lexM_str (s rest : List Char) (l : Loc) :
    lexM ((Token.Str s).spelling ++ rest) l .normal =
      (lexM rest ((Loc.advs (l.adv '"') (escapeStr s)).adv '"') .normal).map
        (⟨Token.Str s, l⟩ :: ·) := by
  have hstep : stepChar .normal '"' l = .ok ([], .inStr [] false l) := by
    simp [stepChar, normalStep, isWs]
  show lexM ('"' :: ((escapeStr s ++ ['"']) ++ rest)) l .normal = _
  rw [lexM_step _ _ _ _ _ _ hstep]
  have hassoc : (escapeStr s ++ ['"']) ++ rest = escapeStr s ++ ('"' :: rest) := by simp
  rw [hassoc, lexM_str_body s rest (l.adv '"') [] l]
  cases lexM rest ((Loc.advs (l.adv '"') (escapeStr s)).adv '"') .normal <;> simp [Except.map]

/-- The string scanner passes quote-free, backslash-free text through
verbatim (the naive key quoting of both renderers). -/
theorem lexM_plain_body (k : List Char) :
    ∀ (rest : List Char) (l : Loc) (acc : List Char) (start : Loc),
      strSafe k = true →
      lexM (k ++ ('"' :: rest)) l (.inStr acc false start) =
        (lexM rest ((Loc.advs l k).adv '"') .normal).map
          (⟨Token.Str (acc ++ k), start⟩ :: ·) := by
  induction k with
  | nil =>
    intro rest l acc start _
    have hstep : stepChar (.inStr acc false start) '"' l =
        .ok ([⟨Token.Str acc, start⟩], .normal) := by
      simp [stepChar]
    show lexM ('"' :: rest) l (.inStr acc false start) = _
    rw [lexM_step _ _ _ _ _ _ hstep]
    show _ = (lexM rest ((Loc.advs l []).adv '"') .normal).map _
    have hl : Loc.advs l ([] : List Char) = l := rfl
    rw [hl]
    cases lexM rest (l.adv '"') .normal <;> simp [Except.map]
  | cons c k' ih =>
    intro rest l acc start hsafe
    simp only [strSafe, List.all_cons, Bool.and_eq_true] at hsafe
    have h1 : c ≠ '"' := by
      intro hEq
      rw [hEq] at hsafe
      exact absurd hsafe.1 (by decide)
    have h2 : c ≠ '\\' := by
      intro hEq
      rw [hEq] at hsafe
      exact absurd hsafe.1 (by decide)
    have hstep : stepChar (.inStr acc false start) c l =
        .ok ([], .inStr (acc ++ [c]) false start) := by
      simp [stepChar, h1, h2]
    rw [List.cons_append, lexM_step _ _ _ _ _ _ hstep, ih rest _ (acc ++ [c]) start hsafe.2]
    have hl : Loc.advs l (c :: k') = Loc.advs (l.adv c) k' := by simp [Loc.advs]
    rw [hl]
    have hacc : acc ++ [c] ++ k' = acc ++ c :: k' := by simp
    rw [hacc]
    cases lexM rest ((Loc.advs (l.adv c) k').adv '"') .normal <;> simp [Except.map]

/-- A whole naively-quoted key. -/
theorem lexM_quoted_key (k rest : List Char) (l : Loc) (hk : strSafe k = true) :
    lexM (('"' :: (k ++ ['"'])) ++ rest) l .normal =
      (lexM rest ((Loc.advs (l.adv '"') k).adv '"') .normal).map
        (⟨Token.Str k, l⟩ :: ·) := by
  have hstep : stepChar .normal '"' l = .ok ([], .inStr [] false l) := by
    simp [stepChar, normalStep, isWs]
  show lexM ('"' :: ((k ++ ['"']) ++ rest)) l .normal = _
  rw [lexM_step _ _ _ _ _ _ hstep]
  have hassoc : (k ++ ['"']) ++ rest = k ++ ('"' :: rest) := by simp
  rw [hassoc, lexM_plain_body k rest (l.adv '"') [] l hk]
  cases lexM rest ((Loc.advs (l.adv '"') k).adv '"') .normal <;> simp [Except.map]


/-- Prefix-map composition for lexer results. -/
theorem map_pre (e : Except KlexError (List RichToken)) (a b : List RichToken) :
    (e.map (fun x => b ++ x)).map (fun x => a ++ x) = e.map (fun x => (a ++ b) ++ x) := by
  cases e <;> simp [Except.map]

/-- Prefix-map composition, cons form. -/
theorem map_pre_cons (e : Except KlexError (List RichToken)) (t : RichToken)
    (b : List RichToken) :
    (e.map (fun x => b ++ x)).map (fun x => t :: x) = e.map (fun x => (t :: b) ++ x) := by
  cases e <;> simp [Except.map]

/-- A cons-map is an append-map. -/
theorem map_cons_eq_pre (e : Except KlexError (List RichToken)) (t : RichToken) :
    e.map (fun x => t :: x) = e.map (fun x => [t] ++ x) := by
  cases e <;> simp [Except.map]

/-- A single-symbol-token key is not quoted. -/
theorem goodSym_unquoted (k : List Char) (h : goodSym k = true) :
    key_needs_quoting k = false := by
  unfold key_needs_quoting lex
  have hx := lexM_sym k [] (Loc.start_of_file 0) h (by intro c hc; simp at hc)
  rw [List.append_nil] at hx
  rw [hx]
  simp [lexM, lexFlush, Except.map]

/-- A single-number-token key is not quoted. -/
theorem numCore_unquoted (k : List Char) (h : numCore k = true) :
    key_needs_quoting k = false := by
  unfold key_needs_quoting lex
  have hx := lexM_num k [] (Loc.start_of_file 0) h (by intro c hc; simp at hc)
  rw [List.append_nil] at hx
  rw [hx]
  simp [lexM, lexFlush, Except.map]


/-! ## The minimal renderer's output lexes to an encoding of the value -/

/-- An object key as either renderer emits it, followed by a colon: lexes to
a key token (symbol, number, or string, with text `k`) and a colon token. -/
theorem key_lex (k : List Char) (hk : goodKey k = true) (tail : List Char) (l : Loc) :
    ∃ (kt : Token) (rts : List RichToken) (l2 : Loc),
      rts.map RichToken.inner = [kt, Token.Colon] ∧
      (kt = Token.Sym k ∨ kt = Token.Num k ∨ kt = Token.Str k) ∧
      lexM ((if key_needs_quoting k then '"' :: (k ++ ['"']) else k) ++ (':' :: tail)) l
          .normal =
        (lexM tail l2 .normal).map (fun x => rts ++ x) := by
  have hcolon : ∀ l2 : Loc, stepChar .normal ':' l2 = .ok ([⟨Token.Colon, l2⟩], .normal) :=
    fun _ => rfl
  cases hks : goodSym k with
  | true =>
    rw [goodSym_unquoted k hks]
    simp only [Bool.false_eq_true, if_false]
    have hsym := lexM_sym k (':' :: tail) l hks
      (by intro c hc; simp only [List.head?_cons, Option.some.injEq] at hc; subst hc; decide)
    rw [hsym, lexM_step _ _ _ _ _ _ (hcolon (Loc.advs l k)), map_pre_cons]
    exact ⟨Token.Sym k, [⟨Token.Sym k, l⟩, ⟨Token.Colon, Loc.advs l k⟩],
      (Loc.advs l k).adv ':', by simp, Or.inl rfl, rfl⟩
  | false =>
    cases hkn : numCore k with
    | true =>
      rw [numCore_unquoted k hkn]
      simp only [Bool.false_eq_true, if_false]
      have hnum := lexM_num k (':' :: tail) l hkn
        (by intro c hc; simp only [List.head?_cons, Option.some.injEq] at hc; subst hc; decide)
      rw [hnum, lexM_step _ _ _ _ _ _ (hcolon (Loc.advs l k)), map_pre_cons]
      exact ⟨Token.Num k, [⟨Token.Num k, l⟩, ⟨Token.Colon, Loc.advs l k⟩],
        (Loc.advs l k).adv ':', by simp, Or.inr (Or.inl rfl), rfl⟩
    | false =>
      have hand : (key_needs_quoting k && strSafe k) = true := by
        unfold goodKey at hk
        rw [hks, hkn] at hk
        simpa using hk
      have hkq : key_needs_quoting k = true := by
        cases hx : key_needs_quoting k
        · rw [hx] at hand; simp at hand
        · rfl
      have hkss : strSafe k = true := by
        cases hx : strSafe k
        · rw [hx] at hand; simp at hand
        · rfl
      rw [hkq]
      simp only [if_true]
      have hq := lexM_quoted_key k (':' :: tail) l hkss
      rw [hq, lexM_step _ _ _ _ _ _ (hcolon ((Loc.advs (l.adv '"') k).adv '"')), map_pre_cons]
      exact ⟨Token.Str k,
        [⟨Token.Str k, l⟩, ⟨Token.Colon, (Loc.advs (l.adv '"') k).adv '"'⟩],
        ((Loc.advs (l.adv '"') k).adv '"').adv ':', by simp, Or.inr (Or.inr rfl), rfl⟩

/-- The empty-object tail encoding: just the closing brace. -/
theorem EncPairs_nil_intro : EncPairs [] [Token.RBrace] := by
  simp [EncPairs]

/-- Introduction form for a nonempty-object tail encoding. -/
theorem EncPairs_cons_intro (k : List Char) (v : Value) (rest : List (List Char × Value))
    (kt : Token) (vts cs rts : List Token)
    (hkt : kt = Token.Sym k ∨ kt = Token.Num k ∨ kt = Token.Str k)
    (hv : EncV v vts) (hcs : cs = [] ∨ cs = [Token.Comma]) (hr : EncPairs rest rts) :
    EncPairs ((k, v) :: rest) (kt :: Token.Colon :: (vts ++ cs ++ rts)) := by
  simp only [EncPairs]
  exact ⟨kt, vts, cs, rts, rfl, hkt, hv, hcs, hr⟩

/-- The empty-list tail encoding: just the closing bracket. -/
theorem EncItems_nil_intro : EncItems [] [Token.RBrack] := by
  simp [EncItems]

/-- Introduction form for a nonempty-list tail encoding. -/
theorem EncItems_cons_intro (v : Value) (rest : List Value) (vts cs rts : List Token)
    (hv : EncV v vts) (hcs : cs = [] ∨ cs = [Token.Comma]) (hr : EncItems rest rts) :
    EncItems (v :: rest) (vts ++ cs ++ rts) := by
  simp only [EncItems]
  exact ⟨vts, cs, rts, rfl, hv, hcs, hr⟩

mutual

theorem min_lex (v : Value) (hsafe : SafeMin v = true) :
    ∀ (s : List Char) (l : Loc),
      (∀ c, s.head? = some c → isSymChar c = false ∧ isNumChar c = false) →
      ∃ (rts : List RichToken) (l' : Loc),
        lexM (min_spell v ++ s) l .normal = (lexM s l' .normal).map (fun x => rts ++ x) ∧
        EncV v (rts.map RichToken.inner) := by
  match v with
  | .None =>
    intro s l hb
    have hsym := lexM_sym "None".toList s l (by decide) (fun c hc => (hb c hc).1)
    refine ⟨[⟨Token.Sym "None".toList, l⟩], Loc.advs l "None".toList, ?_, ?_⟩
    · show lexM ("None".toList ++ s) l .normal = _
      rw [hsym, map_cons_eq_pre]
    · show EncV Value.None _
      simp only [EncV, List.map_cons, List.map_nil]
      exact ⟨"None".toList, rfl, Or.inl (by decide)⟩
  | .Bool b =>
    intro s l hb
    cases b with
    | true =>
      have hsym := lexM_sym "true".toList s l (by decide) (fun c hc => (hb c hc).1)
      refine ⟨[⟨Token.Sym "true".toList, l⟩], Loc.advs l "true".toList, ?_, ?_⟩
      · show lexM ("true".toList ++ s) l .normal = _
        rw [hsym, map_cons_eq_pre]
      · show EncV (Value.Bool true) _
        simp only [EncV, List.map_cons, List.map_nil]
        exact ⟨"true".toList, rfl, by decide⟩
    | false =>
      have hsym := lexM_sym "false".toList s l (by decide) (fun c hc => (hb c hc).1)
      refine ⟨[⟨Token.Sym "false".toList, l⟩], Loc.advs l "false".toList, ?_, ?_⟩
      · show lexM ("false".toList ++ s) l .normal = _
        rw [hsym, map_cons_eq_pre]
      · show EncV (Value.Bool false) _
        simp only [EncV, List.map_cons, List.map_nil]
        exact ⟨"false".toList, rfl, by decide⟩
  | .Num sn =>
    intro s l hb
    have hnum : numOk sn = true := hsafe
    cases sn with
    | nil => exact absurd hnum (by decide)
    | cons c t =>
      by_cases hc : c = '-'
      · subst hc
        have hcore : numCore t = true := hnum
        have hstep : stepChar .normal '-' l = .ok ([⟨Token.Dash, l⟩], .normal) := rfl
        have hn := lexM_num t s (l.adv '-') hcore (fun c hc => (hb c hc).2)
        refine ⟨[⟨Token.Dash, l⟩, ⟨Token.Num t, l.adv '-'⟩], Loc.advs (l.adv '-') t, ?_, ?_⟩
        · show lexM (('-' :: t) ++ s) l .normal = _
          rw [List.cons_append, lexM_step _ _ _ _ _ _ hstep, hn, map_cons_eq_pre, map_pre]
          rfl
        · show EncV (Value.Num ('-' :: t)) _
          simp only [EncV, List.map_cons, List.map_nil]
          exact Or.inr ⟨t, rfl, rfl⟩
      · have hcore : numCore (c :: t) = true := by
          have heq : numOk (c :: t) = numCore (c :: t) := by
            unfold numOk
            split
            · rename_i t' hmatch
              exact absurd (List.head_eq_of_cons_eq hmatch.symm).symm hc
            · rfl
          rw [heq] at hnum
          exact hnum
        have hn := lexM_num (c :: t) s l hcore (fun c hc => (hb c hc).2)
        refine ⟨[⟨Token.Num (c :: t), l⟩], Loc.advs l (c :: t), ?_, ?_⟩
        · show lexM ((c :: t) ++ s) l .normal = _
          rw [hn, map_cons_eq_pre]
        · show EncV (Value.Num (c :: t)) _
          simp only [EncV, List.map_cons, List.map_nil]
          exact Or.inl (by simp)
  | .Str sn raw =>
    intro s l hb
    have hraw : raw = false := by simpa [SafeMin] using hsafe
    subst hraw
    have hstr := lexM_str sn s l
    refine ⟨[⟨Token.Str sn, l⟩], (Loc.advs (l.adv '"') (escapeStr sn)).adv '"', ?_, ?_⟩
    · show lexM ((Token.Str sn).spelling ++ s) l .normal = _
      rw [hstr, map_cons_eq_pre]
    · show EncV (Value.Str sn false) _
      simp only [EncV, List.map_cons, List.map_nil]
      exact Or.inl (by simp)
  | .Obj m =>
    intro s l hb
    have hsp : SafeMinPairs m = true := by
      have hx : SafeMin (Value.Obj m) = (keysDistinct (m.map Prod.fst) && SafeMinPairs m) := rfl
      rw [hx] at hsafe
      have h2 : keysDistinct (m.map Prod.fst) = true ∧ SafeMinPairs m = true := by
        simpa using hsafe
      exact h2.2
    have hstep : stepChar .normal '{' l = .ok ([⟨Token.LBrace, l⟩], .normal) := rfl
    obtain ⟨rts', l', heq, henc⟩ := min_lex_pairs m hsp s (l.adv '{') hb
    refine ⟨⟨Token.LBrace, l⟩ :: rts', l', ?_, ?_⟩
    · show lexM (('{' :: (min_spell_pairs m ++ ['}'])) ++ s) l .normal = _
      rw [List.cons_append, lexM_step _ _ _ _ _ _ hstep, heq, map_pre]
      rfl
    · show EncV (Value.Obj m) _
      simp only [EncV, List.map_cons]
      exact ⟨rts'.map RichToken.inner, rfl, henc⟩
  | .List xs =>
    intro s l hb
    have hsi : SafeMinItems xs = true := hsafe
    have hstep : stepChar .normal '[' l = .ok ([⟨Token.LBrack, l⟩], .normal) := rfl
    obtain ⟨rts', l', heq, henc⟩ := min_lex_items xs hsi s (l.adv '[') hb
    refine ⟨⟨Token.LBrack, l⟩ :: rts', l', ?_, ?_⟩
    · show lexM (('[' :: (min_spell_items xs ++ [']'])) ++ s) l .normal = _
      rw [List.cons_append, lexM_step _ _ _ _ _ _ hstep, heq, map_pre]
      rfl
    · show EncV (Value.List xs) _
      simp only [EncV, List.map_cons]
      exact ⟨rts'.map RichToken.inner, rfl, henc⟩

theorem min_lex_pairs (m : List (List Char × Value)) (hsafe : SafeMinPairs m = true) :
    ∀ (s : List Char) (l : Loc),
      (∀ c, s.head? = some c → isSymChar c = false ∧ isNumChar c = false) →
      ∃ (rts : List RichToken) (l' : Loc),
        lexM ((min_spell_pairs m ++ ['}']) ++ s) l .normal =
          (lexM s l' .normal).map (fun x => rts ++ x) ∧
        EncPairs m (rts.map RichToken.inner) := by
  match m with
  | [] =>
    intro s l hb
    have hstep : stepChar .normal '}' l = .ok ([⟨Token.RBrace, l⟩], .normal) := rfl
    refine ⟨[⟨Token.RBrace, l⟩], l.adv '}', ?_, ?_⟩
    · show lexM ('}' :: s) l .normal = _
      rw [lexM_step _ _ _ _ _ _ hstep]
    · show EncPairs [] _
      simp [EncPairs]
  | (k, v) :: rest =>
    intro s l hb
    have hparts : goodKey k = true ∧ SafeMin v = true ∧ SafeMinPairs rest = true := by
      have hx : SafeMinPairs ((k, v) :: rest) =
          (goodKey k && (SafeMin v && SafeMinPairs rest)) := by
        show (goodKey k && SafeMin v && SafeMinPairs rest) = _
        rw [Bool.and_assoc]
      rw [hx] at hsafe
      simpa [Bool.and_eq_true] using hsafe
    obtain ⟨hk, hv, hrest⟩ := hparts
    cases rest with
    | nil =>
      -- text: keypart ++ ':' :: (min_spell v ++ ('}' :: s))
      obtain ⟨kt, rtsk, l2, hmapk, hktype, heqk⟩ :=
        key_lex k hk (min_spell v ++ ('}' :: s)) l
      obtain ⟨vts, l3, heqv, hencv⟩ := min_lex v hv ('}' :: s) l2
        (by intro c hc; simp only [List.head?_cons, Option.some.injEq] at hc; subst hc; decide)
      have hstep : stepChar .normal '}' l3 = .ok ([⟨Token.RBrace, l3⟩], .normal) := rfl
      refine ⟨(rtsk ++ vts) ++ [⟨Token.RBrace, l3⟩], l3.adv '}', ?_, ?_⟩
      · show lexM
          (((if key_needs_quoting k then '"' :: (k ++ ['"']) else k) ++ [':'] ++ min_spell v
            ++ [] ++ [] ++ ['}']) ++ s) l .normal = _
        have hshape : ((if key_needs_quoting k then '"' :: (k ++ ['"']) else k) ++ [':']
              ++ min_spell v ++ [] ++ [] ++ ['}']) ++ s =
            (if key_needs_quoting k then '"' :: (k ++ ['"']) else k) ++
              (':' :: (min_spell v ++ ('}' :: s))) := by
          simp
        rw [hshape, heqk, heqv, lexM_step _ _ _ _ _ _ hstep, map_pre, map_pre]
      · have hts : ((rtsk ++ vts) ++ [(⟨Token.RBrace, l3⟩ : RichToken)]).map RichToken.inner =
            kt :: Token.Colon :: (vts.map RichToken.inner ++ [] ++ [Token.RBrace]) := by
          simp [hmapk]
        rw [hts]
        exact EncPairs_cons_intro _ _ _ _ _ _ _ hktype hencv (Or.inl rfl) EncPairs_nil_intro
    | cons p t =>
      -- text: keypart ++ ':' :: (min_spell v ++ (',' :: ((min_spell_pairs (p :: t) ++ ['}']) ++ s)))
      obtain ⟨kt, rtsk, l2, hmapk, hktype, heqk⟩ :=
        key_lex k hk (min_spell v ++ (',' :: ((min_spell_pairs (p :: t) ++ ['}']) ++ s))) l
      obtain ⟨vts, l3, heqv, hencv⟩ := min_lex v hv
        (',' :: ((min_spell_pairs (p :: t) ++ ['}']) ++ s)) l2
        (by intro c hc; simp only [List.head?_cons, Option.some.injEq] at hc; subst hc; decide)
      have hstep : stepChar .normal ',' l3 = .ok ([⟨Token.Comma, l3⟩], .normal) := rfl
      obtain ⟨rtsr, l4, heqr, hencr⟩ := min_lex_pairs (p :: t) hrest s (l3.adv ',') hb
      refine ⟨((rtsk ++ vts) ++ [⟨Token.Comma, l3⟩]) ++ rtsr, l4, ?_, ?_⟩
      · show lexM
          (((if key_needs_quoting k then '"' :: (k ++ ['"']) else k) ++ [':'] ++ min_spell v
            ++ [','] ++ min_spell_pairs (p :: t) ++ ['}']) ++ s) l .normal = _
        have hshape : ((if key_needs_quoting k then '"' :: (k ++ ['"']) else k) ++ [':']
              ++ min_spell v ++ [','] ++ min_spell_pairs (p :: t) ++ ['}']) ++ s =
            (if key_needs_quoting k then '"' :: (k ++ ['"']) else k) ++
              (':' :: (min_spell v ++ (',' :: ((min_spell_pairs (p :: t) ++ ['}']) ++ s)))) := by
          simp
        rw [hshape, heqk, heqv, lexM_step _ _ _ _ _ _ hstep, heqr, map_pre, map_pre, map_pre]
      · have hts : ((((rtsk ++ vts) ++ [(⟨Token.Comma, l3⟩ : RichToken)]) ++ rtsr).map RichToken.inner) =
            kt :: Token.Colon ::
              (vts.map RichToken.inner ++ [Token.Comma] ++ rtsr.map RichToken.inner) := by
          simp [hmapk]
        rw [hts]
        exact EncPairs_cons_intro _ _ _ _ _ _ _ hktype hencv (Or.inr rfl) hencr

theorem min_lex_items (xs : List Value) (hsafe : SafeMinItems xs = true) :
    ∀ (s : List Char) (l : Loc),
      (∀ c, s.head? = some c → isSymChar c = false ∧ isNumChar c = false) →
      ∃ (rts : List RichToken) (l' : Loc),
        lexM ((min_spell_items xs ++ [']']) ++ s) l .normal =
          (lexM s l' .normal).map (fun x => rts ++ x) ∧
        EncItems xs (rts.map RichToken.inner) := by
  match xs with
  | [] =>
    intro s l hb
    have hstep : stepChar .normal ']' l = .ok ([⟨Token.RBrack, l⟩], .normal) := rfl
    refine ⟨[⟨Token.RBrack, l⟩], l.adv ']', ?_, ?_⟩
    · show lexM (']' :: s) l .normal = _
      rw [lexM_step _ _ _ _ _ _ hstep]
    · show EncItems [] _
      simp [EncItems]
  | v :: rest =>
    intro s l hb
    have hparts : SafeMin v = true ∧ SafeMinItems rest = true := by
      have hx : SafeMinItems (v :: rest) = (SafeMin v && SafeMinItems rest) := rfl
      rw [hx] at hsafe
      simpa [Bool.and_eq_true] using hsafe
    obtain ⟨hv, hrest⟩ := hparts
    cases rest with
    | nil =>
      obtain ⟨vts, l3, heqv, hencv⟩ := min_lex v hv (']' :: s) l
        (by intro c hc; simp only [List.head?_cons, Option.some.injEq] at hc; subst hc; decide)
      have hstep : stepChar .normal ']' l3 = .ok ([⟨Token.RBrack, l3⟩], .normal) := rfl
      refine ⟨vts ++ [⟨Token.RBrack, l3⟩], l3.adv ']', ?_, ?_⟩
      · show lexM ((min_spell v ++ [] ++ [] ++ [']']) ++ s) l .normal = _
        have hshape : (min_spell v ++ [] ++ [] ++ [']']) ++ s =
            min_spell v ++ (']' :: s) := by simp
        rw [hshape, heqv, lexM_step _ _ _ _ _ _ hstep, map_pre]
      · have hts : (vts ++ [(⟨Token.RBrack, l3⟩ : RichToken)]).map RichToken.inner =
            vts.map RichToken.inner ++ [] ++ [Token.RBrack] := by simp
        rw [hts]
        exact EncItems_cons_intro _ _ _ _ _ hencv (Or.inl rfl) EncItems_nil_intro
    | cons p t =>
      obtain ⟨vts, l3, heqv, hencv⟩ := min_lex v hv
        (',' :: ((min_spell_items (p :: t) ++ [']']) ++ s)) l
        (by intro c hc; simp only [List.head?_cons, Option.some.injEq] at hc; subst hc; decide)
      have hstep : stepChar .normal ',' l3 = .ok ([⟨Token.Comma, l3⟩], .normal) := rfl
      obtain ⟨rtsr, l4, heqr, hencr⟩ := min_lex_items (p :: t) hrest s (l3.adv ',') hb
      refine ⟨(vts ++ [⟨Token.Comma, l3⟩]) ++ rtsr, l4, ?_, ?_⟩
      · show lexM ((min_spell v ++ [','] ++ min_spell_items (p :: t) ++ [']']) ++ s) l .normal = _
        have hshape : (min_spell v ++ [','] ++ min_spell_items (p :: t) ++ [']']) ++ s =
            min_spell v ++ (',' :: ((min_spell_items (p :: t) ++ [']']) ++ s)) := by simp
        rw [hshape, heqv, lexM_step _ _ _ _ _ _ hstep, heqr, map_pre, map_pre]
      · have hts : ((vts ++ [(⟨Token.Comma, l3⟩ : RichToken)]) ++ rtsr).map RichToken.inner =
            vts.map RichToken.inner ++ [Token.Comma] ++ rtsr.map RichToken.inner := by simp
        rw [hts]
        exact EncItems_cons_intro _ _ _ _ _ hencv (Or.inr rfl) hencr

end


/-! ## The pretty-printer's output lexes to an encoding of the value -/

/-- `noWsRun` is closed under dropping the head. -/
theorem noWsRun_tail (a : Char) (x : List Char) (h : noWsRun (a :: x) = true) :
    noWsRun x = true := by
  cases x with
  | nil => rfl
  | cons b t =>
    have hx : noWsRun (a :: b :: t) = (!(isWs a && isWs b) && noWsRun (b :: t)) := rfl
    rw [hx] at h
    cases hb : noWsRun (b :: t)
    · rw [hb] at h; simp at h
    · rfl

/-- On text with no whitespace runs, the squash scanner copies its input,
whether nothing or a single whitespace character is pending. -/
theorem sqGo_noWs : ∀ (x : List Char),
    (noWsRun x = true → sqGo x .empty = x) ∧
    (∀ w, isWs w = true → noWsRun (w :: x) = true → sqGo x (.one w) = w :: x) := by
  intro x
  induction x with
  | nil =>
    refine ⟨fun _ => rfl, fun w _ _ => rfl⟩
  | cons c rest ih =>
    constructor
    · intro h
      cases hc : isWs c
      · simp only [sqGo, hc, Bool.false_eq_true, if_false]
        rw [ih.1 (noWsRun_tail c rest h)]
      · simp only [sqGo, hc, if_true]
        exact ih.2 c hc h
    · intro w hw h
      cases hc : isWs c
      · simp only [sqGo, hc, Bool.false_eq_true, if_false]
        have h2 : noWsRun (c :: rest) = true := noWsRun_tail w _ h
        rw [ih.1 (noWsRun_tail c rest h2)]
      · exfalso
        have hx : noWsRun (w :: c :: rest) = (!(isWs w && isWs c) && noWsRun (c :: rest)) := rfl
        rw [hx, hw, hc] at h
        simp at h

/-- Squashing is the identity on text with no whitespace runs. -/
theorem squash_noWsRun_id (x : List Char) (h : noWsRun x = true) :
    squash_whitespace x = x := (sqGo_noWs x).1 h

/-- Wrapping is the identity on text that fits within the width. -/
theorem wrapText_fits (width : Nat) (sub : List Char) (text : List Char)
    (h : text.length ≤ width) : wrapText width sub text = [text] := by
  unfold wrapText
  rw [if_pos h]

/-- Joining a single line inserts no separator. -/
theorem intercalate_single (x : List Char) : List.intercalate ['\n'] [x] = x := by
  simp [List.intercalate]

/-- A reproducible string literal is emitted verbatim by the pretty-printer:
either wrapping is off, or squashing and wrapping both reduce to the
identity. -/
theorem spell0_str_fmtOk (cfg : SpellConfig) (s : List Char) (buf : List Char) (ind : Nat)
    (h : strFmtOk cfg s = true) :
    spell0 (Value.Str s false) buf ind cfg = buf ++ (Token.Str s).spelling := by
  show (if cfg.max_width = 0 then buf ++ (Token.Str s).spelling
    else if (false : Bool) then buf ++ 'r' :: (Token.Str s).spelling
    else buf ++ List.intercalate ['\n']
      (wrapText cfg.max_width (gen_indent (ind + cfg.indent_amount) cfg)
        (squash_whitespace (Token.Str s).spelling))) = _
  by_cases hmw : cfg.max_width = 0
  · rw [if_pos hmw]
  · rw [if_neg hmw]
    simp only [Bool.false_eq_true, if_false]
    unfold strFmtOk at h
    have hd : decide (cfg.max_width = 0) = false := decide_eq_false hmw
    rw [hd] at h
    simp only [Bool.false_or] at h
    have hn : noWsRun (Token.Str s).spelling = true := by
      cases hx : noWsRun (Token.Str s).spelling
      · rw [hx] at h; simp at h
      · rfl
    have hl : (Token.Str s).spelling.length ≤ cfg.max_width := by
      cases hx : decide ((Token.Str s).spelling.length ≤ cfg.max_width)
      · rw [hx] at h; simp at h
      · exact of_decide_eq_true hx
    rw [squash_noWsRun_id _ hn, wrapText_fits _ _ _ hl, intercalate_single]

/-- An indent run is all whitespace when the indent character is. -/
theorem gen_indent_ws (n : Nat) (cfg : SpellConfig) (h : isWs cfg.indent_char = true) :
    (gen_indent n cfg).all isWs = true := by
  simp only [gen_indent, List.all_eq_true]
  intro c hc
  rw [List.eq_of_mem_replicate hc]
  exact h

/-- The lexer skips one whitespace character. -/
theorem lexM_ws1 (c : Char) (rest : List Char) (l : Loc) (hc : isWs c = true) :
    lexM (c :: rest) l .normal = lexM rest (l.adv c) .normal := by
  have h := lexM_ws [c] rest l (by simp [hc])
  simpa [Loc.advs] using h

/-- One entry of the pretty-printer's object loop, relative to the empty
buffer. -/
theorem spell_pairs_step (k : List Char) (v : Value) (rest : List (List Char × Value))
    (ni : Nat) (cfg : SpellConfig) :
    spell_pairs ((k, v) :: rest) [] ni cfg =
      gen_indent ni cfg ++
        (if key_needs_quoting k then '"' :: (k ++ ('"' :: ':' :: [' '])) else k ++ [':', ' ']) ++
        spell0 v [] ni cfg ++
        (if !cfg.trailing_commas && rest.isEmpty then ['\n'] else [',', '\n']) ++
        spell_pairs rest [] ni cfg := by
  show spell_pairs rest
      (spell0 v
          (apply_indent [] ni cfg ++
            (if key_needs_quoting k then '"' :: (k ++ ('"' :: ':' :: [' '])) else k ++ [':', ' ']))
          ni cfg ++
        (if !cfg.trailing_commas && rest.isEmpty then ['\n'] else [',', '\n']))
      ni cfg = _
  rw [spell_pairs_buf, spell0_buf]
  simp [apply_indent, List.append_assoc]

/-- The pretty-printer's object body, relative to the empty buffer. -/
theorem spell0_obj_step (m : List (List Char × Value)) (ind : Nat) (cfg : SpellConfig) :
    spell0 (Value.Obj m) [] ind cfg =
      '\x7b' :: '\n' :: (spell_pairs m [] (ind + cfg.indent_amount) cfg ++
        (gen_indent ind cfg ++ ['\x7d'])) := by
  show (apply_indent
      (spell_pairs m (([] : List Char) ++ ('\x7b' :: ['\n'])) (ind + cfg.indent_amount) cfg)
      ind cfg) ++ ['\x7d'] = _
  rw [spell_pairs_buf]
  simp [apply_indent, List.append_assoc]

/-- The pretty-printer renders the empty list as the two brackets. -/
theorem spell0_list_nil (ind : Nat) (cfg : SpellConfig) :
    spell0 (Value.List []) [] ind cfg = ['[', ']'] := by
  simp [spell0]

/-- The pretty-printer's one-line list body, relative to the empty buffer. -/
theorem spell0_list_one (xs : List Value) (ind : Nat) (cfg : SpellConfig) (hne : xs ≠ [])
    (hol : (decide (xs.length ≤ 5) && (xs.find? isContainer).isNone) = true) :
    spell0 (Value.List xs) [] ind cfg = '[' :: (spell_items xs [] ind cfg true ++ [']']) := by
  have hxe : xs.isEmpty = false := by
    cases xs with
    | nil => exact absurd rfl hne
    | cons a t => rfl
  simp only [spell0]
  rw [find_cont_eq, hxe, hol]
  rw [spell_items_buf]
  simp [List.append_assoc]

/-- The pretty-printer's multi-line list body, relative to the empty
buffer. -/
theorem spell0_list_multi (xs : List Value) (ind : Nat) (cfg : SpellConfig) (hne : xs ≠ [])
    (hol : (decide (xs.length ≤ 5) && (xs.find? isContainer).isNone) = false) :
    spell0 (Value.List xs) [] ind cfg =
      '[' :: '\n' :: (spell_items xs [] ind cfg false ++ (gen_indent ind cfg ++ [']'])) := by
  have hxe : xs.isEmpty = false := by
    cases xs with
    | nil => exact absurd rfl hne
    | cons a t => rfl
  simp only [spell0]
  rw [find_cont_eq, hxe, hol]
  rw [spell_items_buf]
  simp [apply_indent, List.append_assoc]

/-- One element of the pretty-printer's one-line list loop, relative to the
empty buffer. -/
theorem spell_items_one_step (x : Value) (rest : List Value) (ci : Nat) (cfg : SpellConfig) :
    spell_items (x :: rest) [] ci cfg true =
      spell0 x [] 0 cfg ++ (if rest.isEmpty then [] else [',', ' ']) ++
        spell_items rest [] ci cfg true := by
  show spell_items rest
      (if rest.isEmpty then spell0 x [] 0 cfg else spell0 x [] 0 cfg ++ [',', ' '])
      ci cfg true = _
  cases hre : rest.isEmpty <;> (rw [spell_items_buf]; simp)

/-- One element of the pretty-printer's multi-line list loop, relative to
the empty buffer. -/
theorem spell_items_multi_step (x : Value) (rest : List Value) (ci : Nat) (cfg : SpellConfig) :
    spell_items (x :: rest) [] ci cfg false =
      gen_indent (ci + cfg.indent_amount) cfg ++
        spell0 x [] (ci + cfg.indent_amount) cfg ++
        (if cfg.trailing_commas || !rest.isEmpty then [','] else []) ++ ['\n'] ++
        spell_items rest [] ci cfg false := by
  show spell_items rest
      ((if cfg.trailing_commas || !rest.isEmpty then
          spell0 x (apply_indent [] (ci + cfg.indent_amount) cfg) (ci + cfg.indent_amount) cfg
            ++ [',']
        else
          spell0 x (apply_indent [] (ci + cfg.indent_amount) cfg) (ci + cfg.indent_amount) cfg)
        ++ ['\n'])
      ci cfg false = _
  rw [spell0_buf, spell_items_buf]
  cases htc : (cfg.trailing_commas || !rest.isEmpty) <;>
    simp [apply_indent, List.append_assoc]


mutual

theorem fmt_lex (cfg : SpellConfig) (hic : isWs cfg.indent_char = true) (v : Value)
    (hsafe : SafeMin v = true) (hfmt : FmtOk cfg v = true) :
    ∀ (ind : Nat) (s : List Char) (l : Loc),
      (∀ c, s.head? = some c → isSymChar c = false ∧ isNumChar c = false) →
      ∃ (rts : List RichToken) (l' : Loc),
        lexM (spell0 v [] ind cfg ++ s) l .normal =
          (lexM s l' .normal).map (fun x => rts ++ x) ∧
        EncV v (rts.map RichToken.inner) := by
  match v with
  | .None =>
    intro ind s l hb
    have hms : spell0 Value.None [] ind cfg = min_spell Value.None := by
      simp [spell0, min_spell]
    rw [hms]
    exact min_lex Value.None hsafe s l hb
  | .Bool b =>
    intro ind s l hb
    have hms : spell0 (Value.Bool b) [] ind cfg = min_spell (Value.Bool b) := by
      simp [spell0, min_spell]
    rw [hms]
    exact min_lex (Value.Bool b) hsafe s l hb
  | .Num sn =>
    intro ind s l hb
    have hms : spell0 (Value.Num sn) [] ind cfg = min_spell (Value.Num sn) := by
      simp [spell0, min_spell]
    rw [hms]
    exact min_lex (Value.Num sn) hsafe s l hb
  | .Str sn raw =>
    intro ind s l hb
    have hraw : raw = false := by simpa [SafeMin] using hsafe
    subst hraw
    have hfs : strFmtOk cfg sn = true := by simpa [FmtOk] using hfmt
    have hms : spell0 (Value.Str sn false) [] ind cfg = min_spell (Value.Str sn false) := by
      rw [spell0_str_fmtOk cfg sn [] ind hfs]
      simp [min_spell]
    rw [hms]
    exact min_lex (Value.Str sn false) hsafe s l hb
  | .Obj m =>
    intro ind s l hb
    have hsp : SafeMinPairs m = true := by
      have hx : SafeMin (Value.Obj m) = (keysDistinct (m.map Prod.fst) && SafeMinPairs m) := rfl
      rw [hx] at hsafe
      have h2 : keysDistinct (m.map Prod.fst) = true ∧ SafeMinPairs m = true := by
        simpa using hsafe
      exact h2.2
    have hfp : FmtOkPairs cfg m = true := by simpa [FmtOk] using hfmt
    have hstep : stepChar .normal '\x7b' l = .ok ([⟨Token.LBrace, l⟩], .normal) := rfl
    obtain ⟨rts', l', heq, henc⟩ :=
      fmt_lex_pairs cfg hic m hsp hfp (ind + cfg.indent_amount) ind s
        ((l.adv '\x7b').adv '\n') hb
    refine ⟨⟨Token.LBrace, l⟩ :: rts', l', ?_, ?_⟩
    · rw [spell0_obj_step]
      have h1 : ('\x7b' :: '\n' :: (spell_pairs m [] (ind + cfg.indent_amount) cfg ++
            (gen_indent ind cfg ++ ['\x7d']))) ++ s =
          '\x7b' :: ('\n' :: ((spell_pairs m [] (ind + cfg.indent_amount) cfg ++
            (gen_indent ind cfg ++ ['\x7d'])) ++ s)) := by simp
      rw [h1, lexM_step _ _ _ _ _ _ hstep, lexM_ws1 '\n' _ _ (by decide), heq, map_pre]
      rfl
    · show EncV (Value.Obj m) _
      simp only [EncV, List.map_cons]
      exact ⟨rts'.map RichToken.inner, rfl, henc⟩
  | .List xs =>
    intro ind s l hb
    have hsi : SafeMinItems xs = true := hsafe
    have hfi : FmtOkItems cfg xs = true := by simpa [FmtOk] using hfmt
    cases xs with
    | nil =>
      refine ⟨[⟨Token.LBrack, l⟩, ⟨Token.RBrack, l.adv '['⟩], (l.adv '[').adv ']', ?_, ?_⟩
      · rw [spell0_list_nil]
        have hstep1 : stepChar .normal '[' l = .ok ([⟨Token.LBrack, l⟩], .normal) := rfl
        have hstep2 : stepChar .normal ']' (l.adv '[') =
            .ok ([⟨Token.RBrack, l.adv '['⟩], .normal) := rfl
        have h1 : (['[', ']'] : List Char) ++ s = '[' :: (']' :: s) := by simp
        rw [h1, lexM_step _ _ _ _ _ _ hstep1, lexM_step _ _ _ _ _ _ hstep2, map_pre]
        rfl
      · show EncV (Value.List []) _
        simp only [EncV, List.map_cons, List.map_nil]
        exact ⟨[Token.RBrack], rfl, EncItems_nil_intro⟩
    | cons x xt =>
      have hne : (x :: xt) ≠ ([] : List Value) := by simp
      have hstep1 : stepChar .normal '[' l = .ok ([⟨Token.LBrack, l⟩], .normal) := rfl
      cases hol : (decide ((x :: xt).length ≤ 5) && ((x :: xt).find? isContainer).isNone) with
      | true =>
        obtain ⟨rts', l', heq, henc⟩ :=
          fmt_lex_items_one cfg hic (x :: xt) hsi hfi ind s (l.adv '[') hb
        refine ⟨⟨Token.LBrack, l⟩ :: rts', l', ?_, ?_⟩
        · rw [spell0_list_one (x :: xt) ind cfg hne hol]
          have h1 : ('[' :: (spell_items (x :: xt) [] ind cfg true ++ [']'])) ++ s =
              '[' :: ((spell_items (x :: xt) [] ind cfg true ++ [']']) ++ s) := by simp
          rw [h1, lexM_step _ _ _ _ _ _ hstep1, heq, map_pre]
          rfl
        · show EncV (Value.List (x :: xt)) _
          simp only [EncV, List.map_cons]
          exact ⟨rts'.map RichToken.inner, rfl, henc⟩
      | false =>
        obtain ⟨rts', l', heq, henc⟩ :=
          fmt_lex_items_multi cfg hic (x :: xt) hsi hfi ind s ((l.adv '[').adv '\n') hb
        refine ⟨⟨Token.LBrack, l⟩ :: rts', l', ?_, ?_⟩
        · rw [spell0_list_multi (x :: xt) ind cfg hne hol]
          have h1 : ('[' :: '\n' :: (spell_items (x :: xt) [] ind cfg false ++
                (gen_indent ind cfg ++ [']']))) ++ s =
              '[' :: ('\n' :: ((spell_items (x :: xt) [] ind cfg false ++
                (gen_indent ind cfg ++ [']'])) ++ s)) := by simp
          rw [h1, lexM_step _ _ _ _ _ _ hstep1, lexM_ws1 '\n' _ _ (by decide), heq, map_pre]
          rfl
        · show EncV (Value.List (x :: xt)) _
          simp only [EncV, List.map_cons]
          exact ⟨rts'.map RichToken.inner, rfl, henc⟩

theorem fmt_lex_pairs (cfg : SpellConfig) (hic : isWs cfg.indent_char = true)
    (m : List (List Char × Value)) (hsafe : SafeMinPairs m = true)
    (hfmt : FmtOkPairs cfg m = true) :
    ∀ (ni ind : Nat) (s : List Char) (l : Loc),
      (∀ c, s.head? = some c → isSymChar c = false ∧ isNumChar c = false) →
      ∃ (rts : List RichToken) (l' : Loc),
        lexM ((spell_pairs m [] ni cfg ++ (gen_indent ind cfg ++ ['\x7d'])) ++ s) l .normal =
          (lexM s l' .normal).map (fun x => rts ++ x) ∧
        EncPairs m (rts.map RichToken.inner) := by
  match m with
  | [] =>
    intro ni ind s l hb
    have hstep : stepChar .normal '\x7d' (Loc.advs l (gen_indent ind cfg)) =
        .ok ([⟨Token.RBrace, Loc.advs l (gen_indent ind cfg)⟩], .normal) := rfl
    refine ⟨[⟨Token.RBrace, Loc.advs l (gen_indent ind cfg)⟩],
      (Loc.advs l (gen_indent ind cfg)).adv '\x7d', ?_, ?_⟩
    · have h1 : ((spell_pairs ([] : List (List Char × Value)) [] ni cfg ++
            (gen_indent ind cfg ++ ['\x7d'])) ++ s) =
          gen_indent ind cfg ++ ('\x7d' :: s) := by
        simp [spell_pairs]
      rw [h1, lexM_ws _ _ _ (gen_indent_ws ind cfg hic), lexM_step _ _ _ _ _ _ hstep]
    · simp only [List.map_cons, List.map_nil]
      exact EncPairs_nil_intro
  | (k, v) :: rest =>
    intro ni ind s l hb
    have hparts : goodKey k = true ∧ SafeMin v = true ∧ SafeMinPairs rest = true := by
      have hx : SafeMinPairs ((k, v) :: rest) =
          (goodKey k && (SafeMin v && SafeMinPairs rest)) := by
        show (goodKey k && SafeMin v && SafeMinPairs rest) = _
        rw [Bool.and_assoc]
      rw [hx] at hsafe
      simpa [Bool.and_eq_true] using hsafe
    obtain ⟨hk, hv, hrest⟩ := hparts
    have hfparts : FmtOk cfg v = true ∧ FmtOkPairs cfg rest = true := by
      have hx : FmtOkPairs cfg ((k, v) :: rest) = (FmtOk cfg v && FmtOkPairs cfg rest) := rfl
      rw [hx] at hfmt
      simpa using hfmt
    obtain ⟨hfv, hfrest⟩ := hfparts
    cases rest with
    | nil =>
      cases htc : cfg.trailing_commas with
      | false =>
        obtain ⟨kt, rtsk, l2, hmapk, hktype, heqk⟩ := key_lex k hk
          (' ' :: (spell0 v [] ni cfg ++ ('\n' :: (gen_indent ind cfg ++ ('\x7d' :: s)))))
          (Loc.advs l (gen_indent ni cfg))
        obtain ⟨vts, l3, heqv, hencv⟩ := fmt_lex cfg hic v hv hfv ni
          ('\n' :: (gen_indent ind cfg ++ ('\x7d' :: s))) (l2.adv ' ')
          (by intro c hc; simp only [List.head?_cons, Option.some.injEq] at hc; subst hc; decide)
        have hstep : stepChar .normal '\x7d'
            (Loc.advs (l3.adv '\n') (gen_indent ind cfg)) =
            .ok ([⟨Token.RBrace, Loc.advs (l3.adv '\n') (gen_indent ind cfg)⟩], .normal) := rfl
        refine ⟨(rtsk ++ vts) ++
          [⟨Token.RBrace, Loc.advs (l3.adv '\n') (gen_indent ind cfg)⟩],
          (Loc.advs (l3.adv '\n') (gen_indent ind cfg)).adv '\x7d', ?_, ?_⟩
        · rw [spell_pairs_step]
          have h1 : ((gen_indent ni cfg ++
                (if key_needs_quoting k then '"' :: (k ++ ('"' :: ':' :: [' ']))
                  else k ++ [':', ' ']) ++
                spell0 v [] ni cfg ++
                (if !cfg.trailing_commas && ([] : List (List Char × Value)).isEmpty
                  then ['\n'] else [',', '\n']) ++
                spell_pairs ([] : List (List Char × Value)) [] ni cfg) ++
              (gen_indent ind cfg ++ ['\x7d'])) ++ s =
              gen_indent ni cfg ++
                ((if key_needs_quoting k then '"' :: (k ++ ['"']) else k) ++
                  (':' :: (' ' :: (spell0 v [] ni cfg ++
                    ('\n' :: (gen_indent ind cfg ++ ('\x7d' :: s))))))) := by
            cases hq : key_needs_quoting k <;> simp [htc, spell_pairs]
          rw [h1, lexM_ws _ _ _ (gen_indent_ws ni cfg hic), heqk,
            lexM_ws1 ' ' _ _ (by decide), heqv, lexM_ws1 '\n' _ _ (by decide),
            lexM_ws _ _ _ (gen_indent_ws ind cfg hic), lexM_step _ _ _ _ _ _ hstep,
            map_pre, map_pre]
        · have hts : (((rtsk ++ vts) ++
              [(⟨Token.RBrace, Loc.advs (l3.adv '\n') (gen_indent ind cfg)⟩ :
                RichToken)]).map RichToken.inner) =
              kt :: Token.Colon :: (vts.map RichToken.inner ++ [] ++ [Token.RBrace]) := by
            simp [hmapk]
          rw [hts]
          exact EncPairs_cons_intro _ _ _ _ _ _ _ hktype hencv (Or.inl rfl) EncPairs_nil_intro
      | true =>
        obtain ⟨kt, rtsk, l2, hmapk, hktype, heqk⟩ := key_lex k hk
          (' ' :: (spell0 v [] ni cfg ++
            (',' :: ('\n' :: (gen_indent ind cfg ++ ('\x7d' :: s))))))
          (Loc.advs l (gen_indent ni cfg))
        obtain ⟨vts, l3, heqv, hencv⟩ := fmt_lex cfg hic v hv hfv ni
          (',' :: ('\n' :: (gen_indent ind cfg ++ ('\x7d' :: s)))) (l2.adv ' ')
          (by intro c hc; simp only [List.head?_cons, Option.some.injEq] at hc; subst hc; decide)
        have hstepc : stepChar .normal ',' l3 = .ok ([⟨Token.Comma, l3⟩], .normal) := rfl
        have hstep : stepChar .normal '\x7d'
            (Loc.advs ((l3.adv ',').adv '\n') (gen_indent ind cfg)) =
            .ok ([⟨Token.RBrace,
              Loc.advs ((l3.adv ',').adv '\n') (gen_indent ind cfg)⟩], .normal) := rfl
        refine ⟨(((rtsk ++ vts) ++ [⟨Token.Comma, l3⟩]) ++
          [⟨Token.RBrace, Loc.advs ((l3.adv ',').adv '\n') (gen_indent ind cfg)⟩]),
          (Loc.advs ((l3.adv ',').adv '\n') (gen_indent ind cfg)).adv '\x7d', ?_, ?_⟩
        · rw [spell_pairs_step]
          have h1 : ((gen_indent ni cfg ++
                (if key_needs_quoting k then '"' :: (k ++ ('"' :: ':' :: [' ']))
                  else k ++ [':', ' ']) ++
                spell0 v [] ni cfg ++
                (if !cfg.trailing_commas && ([] : List (List Char × Value)).isEmpty
                  then ['\n'] else [',', '\n']) ++
                spell_pairs ([] : List (List Char × Value)) [] ni cfg) ++
              (gen_indent ind cfg ++ ['\x7d'])) ++ s =
              gen_indent ni cfg ++
                ((if key_needs_quoting k then '"' :: (k ++ ['"']) else k) ++
                  (':' :: (' ' :: (spell0 v [] ni cfg ++
                    (',' :: ('\n' :: (gen_indent ind cfg ++ ('\x7d' :: s)))))))) := by
            cases hq : key_needs_quoting k <;> simp [htc, spell_pairs]
          rw [h1, lexM_ws _ _ _ (gen_indent_ws ni cfg hic), heqk,
            lexM_ws1 ' ' _ _ (by decide), heqv, lexM_step _ _ _ _ _ _ hstepc,
            lexM_ws1 '\n' _ _ (by decide), lexM_ws _ _ _ (gen_indent_ws ind cfg hic),
            lexM_step _ _ _ _ _ _ hstep, map_pre, map_pre, map_pre]
        · have hts : ((((rtsk ++ vts) ++ [(⟨Token.Comma, l3⟩ : RichToken)]) ++
              [(⟨Token.RBrace, Loc.advs ((l3.adv ',').adv '\n') (gen_indent ind cfg)⟩ :
                RichToken)]).map RichToken.inner) =
              kt :: Token.Colon ::
                (vts.map RichToken.inner ++ [Token.Comma] ++ [Token.RBrace]) := by
            simp [hmapk]
          rw [hts]
          exact EncPairs_cons_intro _ _ _ _ _ _ _ hktype hencv (Or.inr rfl) EncPairs_nil_intro
    | cons p t =>
      obtain ⟨kt, rtsk, l2, hmapk, hktype, heqk⟩ := key_lex k hk
        (' ' :: (spell0 v [] ni cfg ++
          (',' :: ('\n' :: ((spell_pairs (p :: t) [] ni cfg ++
            (gen_indent ind cfg ++ ['\x7d'])) ++ s)))))
        (Loc.advs l (gen_indent ni cfg))
      obtain ⟨vts, l3, heqv, hencv⟩ := fmt_lex cfg hic v hv hfv ni
        (',' :: ('\n' :: ((spell_pairs (p :: t) [] ni cfg ++
          (gen_indent ind cfg ++ ['\x7d'])) ++ s))) (l2.adv ' ')
        (by intro c hc; simp only [List.head?_cons, Option.some.injEq] at hc; subst hc; decide)
      have hstepc : stepChar .normal ',' l3 = .ok ([⟨Token.Comma, l3⟩], .normal) := rfl
      obtain ⟨rtsr, l4, heqr, hencr⟩ := fmt_lex_pairs cfg hic (p :: t) hrest hfrest ni ind s
        ((l3.adv ',').adv '\n') hb
      refine ⟨((rtsk ++ vts) ++ [⟨Token.Comma, l3⟩]) ++ rtsr, l4, ?_, ?_⟩
      · rw [spell_pairs_step]
        have h1 : ((gen_indent ni cfg ++
              (if key_needs_quoting k then '"' :: (k ++ ('"' :: ':' :: [' ']))
                else k ++ [':', ' ']) ++
              spell0 v [] ni cfg ++
              (if !cfg.trailing_commas && (p :: t).isEmpty then ['\n'] else [',', '\n']) ++
              spell_pairs (p :: t) [] ni cfg) ++
            (gen_indent ind cfg ++ ['\x7d'])) ++ s =
            gen_indent ni cfg ++
              ((if key_needs_quoting k then '"' :: (k ++ ['"']) else k) ++
                (':' :: (' ' :: (spell0 v [] ni cfg ++
                  (',' :: ('\n' :: ((spell_pairs (p :: t) [] ni cfg ++
                    (gen_indent ind cfg ++ ['\x7d'])) ++ s))))))) := by
          cases hq : key_needs_quoting k <;> simp [hq]
        rw [h1, lexM_ws _ _ _ (gen_indent_ws ni cfg hic), heqk,
          lexM_ws1 ' ' _ _ (by decide), heqv, lexM_step _ _ _ _ _ _ hstepc,
          lexM_ws1 '\n' _ _ (by decide), heqr, map_pre, map_pre, map_pre]
      · have hts : ((((rtsk ++ vts) ++ [(⟨Token.Comma, l3⟩ : RichToken)]) ++
            rtsr).map RichToken.inner) =
            kt :: Token.Colon ::
              (vts.map RichToken.inner ++ [Token.Comma] ++ rtsr.map RichToken.inner) := by
          simp [hmapk]
        rw [hts]
        exact EncPairs_cons_intro _ _ _ _ _ _ _ hktype hencv (Or.inr rfl) hencr

theorem fmt_lex_items_one (cfg : SpellConfig) (hic : isWs cfg.indent_char = true)
    (xs : List Value) (hsafe : SafeMinItems xs = true) (hfmt : FmtOkItems cfg xs = true) :
    ∀ (ind : Nat) (s : List Char) (l : Loc),
      (∀ c, s.head? = some c → isSymChar c = false ∧ isNumChar c = false) →
      ∃ (rts : List RichToken) (l' : Loc),
        lexM ((spell_items xs [] ind cfg true ++ [']']) ++ s) l .normal =
          (lexM s l' .normal).map (fun x => rts ++ x) ∧
        EncItems xs (rts.map RichToken.inner) := by
  match xs with
  | [] =>
    intro ind s l hb
    have hstep : stepChar .normal ']' l = .ok ([⟨Token.RBrack, l⟩], .normal) := rfl
    refine ⟨[⟨Token.RBrack, l⟩], l.adv ']', ?_, ?_⟩
    · have h1 : ((spell_items ([] : List Value) [] ind cfg true ++ [']']) ++ s) =
          ']' :: s := by
        simp [spell_items]
      rw [h1, lexM_step _ _ _ _ _ _ hstep]
    · simp only [List.map_cons, List.map_nil]
      exact EncItems_nil_intro
  | x :: rest =>
    intro ind s l hb
    have hparts : SafeMin x = true ∧ SafeMinItems rest = true := by
      have hx : SafeMinItems (x :: rest) = (SafeMin x && SafeMinItems rest) := rfl
      rw [hx] at hsafe
      simpa using hsafe
    obtain ⟨hv, hrest⟩ := hparts
    have hfparts : FmtOk cfg x = true ∧ FmtOkItems cfg rest = true := by
      have hx : FmtOkItems cfg (x :: rest) = (FmtOk cfg x && FmtOkItems cfg rest) := rfl
      rw [hx] at hfmt
      simpa using hfmt
    obtain ⟨hfv, hfrest⟩ := hfparts
    cases rest with
    | nil =>
      obtain ⟨vts, l3, heqv, hencv⟩ := fmt_lex cfg hic x hv hfv 0 (']' :: s) l
        (by intro c hc; simp only [List.head?_cons, Option.some.injEq] at hc; subst hc; decide)
      have hstep : stepChar .normal ']' l3 = .ok ([⟨Token.RBrack, l3⟩], .normal) := rfl
      refine ⟨vts ++ [⟨Token.RBrack, l3⟩], l3.adv ']', ?_, ?_⟩
      · rw [spell_items_one_step]
        have h1 : ((spell0 x [] 0 cfg ++
              (if ([] : List Value).isEmpty then ([] : List Char) else [',', ' ']) ++
              spell_items ([] : List Value) [] ind cfg true) ++ [']']) ++ s =
            spell0 x [] 0 cfg ++ (']' :: s) := by
          simp [spell_items]
        rw [h1, heqv, lexM_step _ _ _ _ _ _ hstep, map_pre]
      · have hts : (vts ++ [(⟨Token.RBrack, l3⟩ : RichToken)]).map RichToken.inner =
            vts.map RichToken.inner ++ [] ++ [Token.RBrack] := by simp
        rw [hts]
        exact EncItems_cons_intro _ _ _ _ _ hencv (Or.inl rfl) EncItems_nil_intro
    | cons p t =>
      obtain ⟨vts, l3, heqv, hencv⟩ := fmt_lex cfg hic x hv hfv 0
        (',' :: (' ' :: ((spell_items (p :: t) [] ind cfg true ++ [']']) ++ s))) l
        (by intro c hc; simp only [List.head?_cons, Option.some.injEq] at hc; subst hc; decide)
      have hstepc : stepChar .normal ',' l3 = .ok ([⟨Token.Comma, l3⟩], .normal) := rfl
      obtain ⟨rtsr, l4, heqr, hencr⟩ := fmt_lex_items_one cfg hic (p :: t) hrest hfrest ind s
        ((l3.adv ',').adv ' ') hb
      refine ⟨(vts ++ [⟨Token.Comma, l3⟩]) ++ rtsr, l4, ?_, ?_⟩
      · rw [spell_items_one_step]
        have h1 : ((spell0 x [] 0 cfg ++
              (if (p :: t).isEmpty then ([] : List Char) else [',', ' ']) ++
              spell_items (p :: t) [] ind cfg true) ++ [']']) ++ s =
            spell0 x [] 0 cfg ++
              (',' :: (' ' :: ((spell_items (p :: t) [] ind cfg true ++ [']']) ++ s))) := by
          simp
        rw [h1, heqv, lexM_step _ _ _ _ _ _ hstepc, lexM_ws1 ' ' _ _ (by decide), heqr,
          map_pre, map_pre]
      · have hts : ((vts ++ [(⟨Token.Comma, l3⟩ : RichToken)]) ++ rtsr).map RichToken.inner =
            vts.map RichToken.inner ++ [Token.Comma] ++ rtsr.map RichToken.inner := by simp
        rw [hts]
        exact EncItems_cons_intro _ _ _ _ _ hencv (Or.inr rfl) hencr

theorem fmt_lex_items_multi (cfg : SpellConfig) (hic : isWs cfg.indent_char = true)
    (xs : List Value) (hsafe : SafeMinItems xs = true) (hfmt : FmtOkItems cfg xs = true) :
    ∀ (ind : Nat) (s : List Char) (l : Loc),
      (∀ c, s.head? = some c → isSymChar c = false ∧ isNumChar c = false) →
      ∃ (rts : List RichToken) (l' : Loc),
        lexM ((spell_items xs [] ind cfg false ++ (gen_indent ind cfg ++ [']'])) ++ s)
            l .normal =
          (lexM s l' .normal).map (fun x => rts ++ x) ∧
        EncItems xs (rts.map RichToken.inner) := by
  match xs with
  | [] =>
    intro ind s l hb
    have hstep : stepChar .normal ']' (Loc.advs l (gen_indent ind cfg)) =
        .ok ([⟨Token.RBrack, Loc.advs l (gen_indent ind cfg)⟩], .normal) := rfl
    refine ⟨[⟨Token.RBrack, Loc.advs l (gen_indent ind cfg)⟩],
      (Loc.advs l (gen_indent ind cfg)).adv ']', ?_, ?_⟩
    · have h1 : ((spell_items ([] : List Value) [] ind cfg false ++
            (gen_indent ind cfg ++ [']'])) ++ s) =
          gen_indent ind cfg ++ (']' :: s) := by
        simp [spell_items]
      rw [h1, lexM_ws _ _ _ (gen_indent_ws ind cfg hic), lexM_step _ _ _ _ _ _ hstep]
    · simp only [List.map_cons, List.map_nil]
      exact EncItems_nil_intro
  | x :: rest =>
    intro ind s l hb
    have hparts : SafeMin x = true ∧ SafeMinItems rest = true := by
      have hx : SafeMinItems (x :: rest) = (SafeMin x && SafeMinItems rest) := rfl
      rw [hx] at hsafe
      simpa using hsafe
    obtain ⟨hv, hrest⟩ := hparts
    have hfparts : FmtOk cfg x = true ∧ FmtOkItems cfg rest = true := by
      have hx : FmtOkItems cfg (x :: rest) = (FmtOk cfg x && FmtOkItems cfg rest) := rfl
      rw [hx] at hfmt
      simpa using hfmt
    obtain ⟨hfv, hfrest⟩ := hfparts
    cases rest with
    | nil =>
      cases htc : cfg.trailing_commas with
      | false =>
        obtain ⟨vts, l3, heqv, hencv⟩ := fmt_lex cfg hic x hv hfv (ind + cfg.indent_amount)
          ('\n' :: (gen_indent ind cfg ++ (']' :: s)))
          (Loc.advs l (gen_indent (ind + cfg.indent_amount) cfg))
          (by intro c hc; simp only [List.head?_cons, Option.some.injEq] at hc; subst hc; decide)
        have hstep : stepChar .normal ']'
            (Loc.advs (l3.adv '\n') (gen_indent ind cfg)) =
            .ok ([⟨Token.RBrack, Loc.advs (l3.adv '\n') (gen_indent ind cfg)⟩], .normal) := rfl
        refine ⟨vts ++ [⟨Token.RBrack, Loc.advs (l3.adv '\n') (gen_indent ind cfg)⟩],
          (Loc.advs (l3.adv '\n') (gen_indent ind cfg)).adv ']', ?_, ?_⟩
        · rw [spell_items_multi_step]
          have h1 : ((gen_indent (ind + cfg.indent_amount) cfg ++
                spell0 x [] (ind + cfg.indent_amount) cfg ++
                (if cfg.trailing_commas || !([] : List Value).isEmpty then [','] else []) ++
                ['\n'] ++ spell_items ([] : List Value) [] ind cfg false) ++
              (gen_indent ind cfg ++ [']'])) ++ s =
              gen_indent (ind + cfg.indent_amount) cfg ++
                (spell0 x [] (ind + cfg.indent_amount) cfg ++
                  ('\n' :: (gen_indent ind cfg ++ (']' :: s)))) := by
            simp [htc, spell_items]
          rw [h1, lexM_ws _ _ _ (gen_indent_ws (ind + cfg.indent_amount) cfg hic), heqv,
            lexM_ws1 '\n' _ _ (by decide), lexM_ws _ _ _ (gen_indent_ws ind cfg hic),
            lexM_step _ _ _ _ _ _ hstep, map_pre]
        · have hts : (vts ++ [(⟨Token.RBrack,
              Loc.advs (l3.adv '\n') (gen_indent ind cfg)⟩ : RichToken)]).map
                RichToken.inner =
              vts.map RichToken.inner ++ [] ++ [Token.RBrack] := by simp
          rw [hts]
          exact EncItems_cons_intro _ _ _ _ _ hencv (Or.inl rfl) EncItems_nil_intro
      | true =>
        obtain ⟨vts, l3, heqv, hencv⟩ := fmt_lex cfg hic x hv hfv (ind + cfg.indent_amount)
          (',' :: ('\n' :: (gen_indent ind cfg ++ (']' :: s))))
          (Loc.advs l (gen_indent (ind + cfg.indent_amount) cfg))
          (by intro c hc; simp only [List.head?_cons, Option.some.injEq] at hc; subst hc; decide)
        have hstepc : stepChar .normal ',' l3 = .ok ([⟨Token.Comma, l3⟩], .normal) := rfl
        have hstep : stepChar .normal ']'
            (Loc.advs ((l3.adv ',').adv '\n') (gen_indent ind cfg)) =
            .ok ([⟨Token.RBrack,
              Loc.advs ((l3.adv ',').adv '\n') (gen_indent ind cfg)⟩], .normal) := rfl
        refine ⟨(vts ++ [⟨Token.Comma, l3⟩]) ++
          [⟨Token.RBrack, Loc.advs ((l3.adv ',').adv '\n') (gen_indent ind cfg)⟩],
          (Loc.advs ((l3.adv ',').adv '\n') (gen_indent ind cfg)).adv ']', ?_, ?_⟩
        · rw [spell_items_multi_step]
          have h1 : ((gen_indent (ind + cfg.indent_amount) cfg ++
                spell0 x [] (ind + cfg.indent_amount) cfg ++
                (if cfg.trailing_commas || !([] : List Value).isEmpty then [','] else []) ++
                ['\n'] ++ spell_items ([] : List Value) [] ind cfg false) ++
              (gen_indent ind cfg ++ [']'])) ++ s =
              gen_indent (ind + cfg.indent_amount) cfg ++
                (spell0 x [] (ind + cfg.indent_amount) cfg ++
                  (',' :: ('\n' :: (gen_indent ind cfg ++ (']' :: s))))) := by
            simp [htc, spell_items]
          rw [h1, lexM_ws _ _ _ (gen_indent_ws (ind + cfg.indent_amount) cfg hic), heqv,
            lexM_step _ _ _ _ _ _ hstepc, lexM_ws1 '\n' _ _ (by decide),
            lexM_ws _ _ _ (gen_indent_ws ind cfg hic), lexM_step _ _ _ _ _ _ hstep,
            map_pre, map_pre]
        · have hts : ((vts ++ [(⟨Token.Comma, l3⟩ : RichToken)]) ++
              [(⟨Token.RBrack,
                Loc.advs ((l3.adv ',').adv '\n') (gen_indent ind cfg)⟩ : RichToken)]).map
                RichToken.inner =
              vts.map RichToken.inner ++ [Token.Comma] ++ [Token.RBrack] := by simp
          rw [hts]
          exact EncItems_cons_intro _ _ _ _ _ hencv (Or.inr rfl) EncItems_nil_intro
    | cons p t =>
      obtain ⟨vts, l3, heqv, hencv⟩ := fmt_lex cfg hic x hv hfv (ind + cfg.indent_amount)
        (',' :: ('\n' :: ((spell_items (p :: t) [] ind cfg false ++
          (gen_indent ind cfg ++ [']'])) ++ s)))
        (Loc.advs l (gen_indent (ind + cfg.indent_amount) cfg))
        (by intro c hc; simp only [List.head?_cons, Option.some.injEq] at hc; subst hc; decide)
      have hstepc : stepChar .normal ',' l3 = .ok ([⟨Token.Comma, l3⟩], .normal) := rfl
      obtain ⟨rtsr, l4, heqr, hencr⟩ := fmt_lex_items_multi cfg hic (p :: t) hrest hfrest
        ind s ((l3.adv ',').adv '\n') hb
      refine ⟨(vts ++ [⟨Token.Comma, l3⟩]) ++ rtsr, l4, ?_, ?_⟩
      · rw [spell_items_multi_step]
        have h1 : ((gen_indent (ind + cfg.indent_amount) cfg ++
              spell0 x [] (ind + cfg.indent_amount) cfg ++
              (if cfg.trailing_commas || !(p :: t).isEmpty then [','] else []) ++
              ['\n'] ++ spell_items (p :: t) [] ind cfg false) ++
            (gen_indent ind cfg ++ [']'])) ++ s =
            gen_indent (ind + cfg.indent_amount) cfg ++
              (spell0 x [] (ind + cfg.indent_amount) cfg ++
                (',' :: ('\n' :: ((spell_items (p :: t) [] ind cfg false ++
                  (gen_indent ind cfg ++ [']'])) ++ s)))) := by
          simp
        rw [h1, lexM_ws _ _ _ (gen_indent_ws (ind + cfg.indent_amount) cfg hic), heqv,
          lexM_step _ _ _ _ _ _ hstepc, lexM_ws1 '\n' _ _ (by decide), heqr,
          map_pre, map_pre]
      · have hts : ((vts ++ [(⟨Token.Comma, l3⟩ : RichToken)]) ++ rtsr).map RichToken.inner =
            vts.map RichToken.inner ++ [Token.Comma] ++ rtsr.map RichToken.inner := by simp
        rw [hts]
        exact EncItems_cons_intro _ _ _ _ _ hencv (Or.inr rfl) hencr

end


/-! ## From encodings back through the parser -/

/-- Split a token-stream equation along a cons. -/
theorem map_cons_split (rts : List RichToken) (t : Token) (b : List Token)
    (h : rts.map RichToken.inner = t :: b) :
    ∃ r rb, rts = r :: rb ∧ r.inner = t ∧ rb.map RichToken.inner = b := by
  cases rts with
  | nil => simp at h
  | cons r rr =>
    simp only [List.map_cons, List.cons.injEq] at h
    exact ⟨r, rr, rfl, h.1, h.2⟩

/-- Split a token-stream equation along an append. -/
theorem map_split (a : List Token) : ∀ (rts : List RichToken) (b : List Token),
    rts.map RichToken.inner = a ++ b →
    ∃ ra rb, rts = ra ++ rb ∧ ra.map RichToken.inner = a ∧ rb.map RichToken.inner = b := by
  induction a with
  | nil =>
    intro rts b h
    exact ⟨[], rts, by simp, rfl, by simpa using h⟩
  | cons t a' ih =>
    intro rts b h
    cases rts with
    | nil => simp at h
    | cons r rr =>
      simp only [List.map_cons, List.cons_append, List.cons.injEq] at h
      obtain ⟨h1, h2⟩ := h
      obtain ⟨ra, rb, hsplit, hma, hmb⟩ := ih rr b h2
      exact ⟨r :: ra, rb, by simp [hsplit], by simp [hma, h1], hmb⟩

/-- Every encoding of a value starts with a token that closes nothing and
separates nothing. -/
theorem encv_head_ne (v : Value) (ts : List Token) (h : EncV v ts) :
    ∃ t ts', ts = t :: ts' ∧ t ≠ Token.RBrace ∧ t ≠ Token.RBrack ∧ t ≠ Token.Comma := by
  cases v with
  | None =>
    simp only [EncV] at h
    obtain ⟨s, hts, _⟩ := h
    exact ⟨Token.Sym s, [], hts, by simp, by simp, by simp⟩
  | Bool b =>
    simp only [EncV] at h
    obtain ⟨s, hts, _⟩ := h
    exact ⟨Token.Sym s, [], hts, by simp, by simp, by simp⟩
  | Num s =>
    simp only [EncV] at h
    rcases h with hts | ⟨t, _, hts⟩
    · exact ⟨Token.Num s, [], hts, by simp, by simp, by simp⟩
    · exact ⟨Token.Dash, [Token.Num t], hts, by simp, by simp, by simp⟩
  | Str s raw =>
    simp only [EncV] at h
    rcases h with ⟨_, hts⟩ | ⟨_, r, hts, _⟩
    · exact ⟨Token.Str s, [], hts, by simp, by simp, by simp⟩
    · exact ⟨Token.Sym r, [Token.Str s], hts, by simp, by simp, by simp⟩
  | Obj m =>
    simp only [EncV] at h
    obtain ⟨body, hts, _⟩ := h
    exact ⟨Token.LBrace, body, hts, by simp, by simp, by simp⟩
  | List xs =>
    simp only [EncV] at h
    obtain ⟨body, hts, _⟩ := h
    exact ⟨Token.LBrack, body, hts, by simp, by simp, by simp⟩

/-- Every encoding of an object tail starts with a non-comma token. -/
theorem encpairs_head_ne_comma (m : List (List Char × Value)) (ts : List Token)
    (h : EncPairs m ts) : ∃ t ts', ts = t :: ts' ∧ t ≠ Token.Comma := by
  cases m with
  | nil =>
    simp only [EncPairs] at h
    exact ⟨Token.RBrace, [], h, by simp⟩
  | cons kv mr =>
    obtain ⟨k, v⟩ := kv
    simp only [EncPairs] at h
    obtain ⟨kt, vts, cs, rts, hts, hkt, _, _, _⟩ := h
    refine ⟨kt, _, hts, ?_⟩
    rcases hkt with h | h | h <;> (subst h; simp)

/-- Every encoding of a list tail starts with a non-comma token. -/
theorem encitems_head_ne_comma (xs : List Value) (ts : List Token)
    (h : EncItems xs ts) : ∃ t ts', ts = t :: ts' ∧ t ≠ Token.Comma := by
  cases xs with
  | nil =>
    simp only [EncItems] at h
    exact ⟨Token.RBrack, [], h, by simp⟩
  | cons x xr =>
    simp only [EncItems] at h
    obtain ⟨vts, cs, rts, hts, hv, _, _⟩ := h
    obtain ⟨t, ts', hv', _, _, hne⟩ := encv_head_ne x vts hv
    subst hv'
    exact ⟨t, ts' ++ cs ++ rts, by simp [hts], hne⟩

/-- `consume_optional_comma` eats a leading comma token. -/
theorem coc_comma (rcm : RichToken) (rr : List RichToken) (l : Loc)
    (h : rcm.inner = Token.Comma) :
    consume_optional_comma ⟨rcm :: rr, l⟩ = ⟨rr, rcm.loc⟩ := by
  simp [consume_optional_comma, TokenIter.peek, TokenIter.advance, h]

/-- `consume_optional_comma` is the identity on any other stream head. -/
theorem coc_other (rt : RichToken) (rr : List RichToken) (l : Loc)
    (h : ¬ rt.inner = Token.Comma) :
    consume_optional_comma ⟨rt :: rr, l⟩ = ⟨rt :: rr, l⟩ := by
  simp [consume_optional_comma, TokenIter.peek, TokenIter.advance, h]

/-- Inserting a fresh key appends the binding. -/
theorem MapT.insert_notmem : ∀ (acc : MapT) (k : List Char) (v : Value),
    acc.all (fun kv => kv.1 != k) = true → MapT.insert acc k v = acc ++ [(k, v)] := by
  intro acc
  induction acc with
  | nil => intro k v _; rfl
  | cons kv' accr ih =>
    intro k v h
    obtain ⟨k', v'⟩ := kv'
    simp only [List.all_cons, Bool.and_eq_true, bne_iff_ne, ne_eq] at h
    show (if k' = k then (k, v) :: accr else (k', v') :: MapT.insert accr k v) = _
    rw [if_neg h.1]
    rw [ih k v h.2]
    simp

/-- In an object with pairwise-distinct keys, the entries before an
occurrence of a key all carry different keys. -/
theorem keysDistinct_prefix_notmem : ∀ (acc : List (List Char × Value))
    (mr : List (List Char × Value)) (k : List Char) (v : Value),
    keysDistinct ((acc ++ (k, v) :: mr).map Prod.fst) = true →
    acc.all (fun kv2 => kv2.1 != k) = true := by
  intro acc
  induction acc with
  | nil => intro mr k v _; rfl
  | cons kv' accr ih =>
    intro mr k v h
    obtain ⟨k', v'⟩ := kv'
    have hx : keysDistinct (((k', v') :: accr ++ (k, v) :: mr).map Prod.fst) =
        (((accr ++ (k, v) :: mr).map Prod.fst).all (fun x => x != k') &&
          keysDistinct ((accr ++ (k, v) :: mr).map Prod.fst)) := rfl
    rw [hx] at h
    simp only [Bool.and_eq_true] at h
    obtain ⟨hall, hrest⟩ := h
    simp only [List.all_cons, Bool.and_eq_true]
    refine ⟨?_, ih mr k v hrest⟩
    have hmem : k ∈ (accr ++ (k, v) :: mr).map Prod.fst := by
      have hm : (k, v) ∈ accr ++ (k, v) :: mr :=
        List.mem_append_right _ (List.mem_cons_self _ _)
      exact List.mem_map_of_mem Prod.fst hm
    have hk := List.all_eq_true.mp hall k hmem
    simp only [bne_iff_ne, ne_eq] at hk ⊢
    exact fun he => hk he.symm

/-- Folding distinct-keyed entries into the accumulator appends them in
order. -/
theorem insertAll_distinct : ∀ (m : List (List Char × Value)) (acc : MapT),
    keysDistinct ((acc ++ m).map Prod.fst) = true → insertAll acc m = acc ++ m := by
  intro m
  induction m with
  | nil => intro acc _; simp [insertAll]
  | cons kv mr ih =>
    intro acc h
    obtain ⟨k, v⟩ := kv
    have hnot : acc.all (fun kv2 => kv2.1 != k) = true :=
      keysDistinct_prefix_notmem acc mr k v h
    show insertAll (MapT.insert acc k v) mr = _
    rw [MapT.insert_notmem acc k v hnot]
    have h4 : ((acc ++ [(k, v)]) ++ mr).map Prod.fst = (acc ++ (k, v) :: mr).map Prod.fst := by
      simp
    rw [ih (acc ++ [(k, v)]) (by rw [h4]; exact h)]
    simp


/-- `next_key_value_pair` on a key token, a colon, and a value that parses:
yields the key/value pair and the iterator after the value. -/
theorem nkvp_key_ok (f : Nat) (rk rc : RichToken) (rr : List RichToken) (l : Loc)
    (k : List Char) (value : Value) (it3 : TokenIter)
    (hkt : rk.inner = Token.Sym k ∨ rk.inner = Token.Num k ∨ rk.inner = Token.Str k)
    (hc : rc.inner = Token.Colon)
    (hnv : next_value f ⟨rr, rc.loc⟩ = some (.ok value, it3)) :
    next_key_value_pair (f + 1) ⟨rk :: rc :: rr, l⟩ = some (.ok (some (k, value)), it3) := by
  obtain ⟨t, lt⟩ := rk
  obtain ⟨tc, lc⟩ := rc
  simp only at hkt hc hnv
  subst hc
  rcases hkt with h | h | h <;> subst h <;>
    simp [next_key_value_pair, TokenIter.next, hnv]


/-- One step of `obj_loop` when the next token does not close the object. -/
theorem obj_loop_step (f : Nat) (ol : Loc) (acc : MapT) (rk : RichToken)
    (rr : List RichToken) (l : Loc) (hne : ¬ rk.inner = Token.RBrace) :
    obj_loop (f + 1) ol acc ⟨rk :: rr, l⟩ =
      match next_key_value_pair f ⟨rk :: rr, l⟩ with
      | Option.none => Option.none
      | some (.error e, itE) => some (.error e, itE)
      | some (.ok Option.none, itE) => some (.error (.UnclosedDelimiter '\x7d' ol), itE)
      | some (.ok (some (key, value)), it') =>
        obj_loop f ol (acc.insert key value) (consume_optional_comma it') := by
  simp only [obj_loop]
  rw [if_neg (by simp [TokenIter.peek, hne])]

/-- One step of `list_loop` when the next token does not close the list. -/
theorem list_loop_step (f : Nat) (ol : Loc) (acc : List Value) (rk : RichToken)
    (rr : List RichToken) (l : Loc) (hne : ¬ rk.inner = Token.RBrack) :
    list_loop (f + 1) ol acc ⟨rk :: rr, l⟩ =
      match next_value f ⟨rk :: rr, l⟩ with
      | Option.none => Option.none
      | some (.error e, itE) => some (.error (.UnclosedDelimiter ']' ol), itE)
      | some (.ok value, it') =>
        list_loop f ol (acc ++ [value]) (consume_optional_comma it') := by
  simp only [list_loop]
  rw [if_neg (by simp [TokenIter.peek, hne])]


mutual

theorem encv_parse (v : Value) (hsafe : SafeMin v = true) :
    ∀ (ts : List Token), EncV v ts →
    ∀ (rts rest : List RichToken) (l : Loc) (f : Nat),
      rts.map RichToken.inner = ts → rts.length + 1 ≤ f →
      ∃ l', next_value f ⟨rts ++ rest, l⟩ = some (.ok v, ⟨rest, l'⟩) := by
  match v with
  | .None =>
    intro ts henc rts rest l f hmap hf
    simp only [EncV] at henc
    obtain ⟨sym, hts, hlow⟩ := henc
    subst hts
    obtain ⟨r, rb, hsplit, hr, hmb⟩ := map_cons_split rts (Token.Sym sym) [] hmap
    have hrb : rb = [] := by cases rb with | nil => rfl | cons a b => simp at hmb
    subst hrb
    subst hsplit
    obtain ⟨t, lt⟩ := r
    simp only at hr
    subst hr
    cases f with
    | zero => simp at hf
    | succ f1 =>
      refine ⟨lt, ?_⟩
      simp only [List.cons_append, List.nil_append]
      simp only [next_value, TokenIter.next]
      rw [if_pos hlow]
  | .Bool b =>
    intro ts henc rts rest l f hmap hf
    simp only [EncV] at henc
    obtain ⟨sym, hts, hlow⟩ := henc
    subst hts
    obtain ⟨r, rb, hsplit, hr, hmb⟩ := map_cons_split rts (Token.Sym sym) [] hmap
    have hrb : rb = [] := by cases rb with | nil => rfl | cons a b => simp at hmb
    subst hrb
    subst hsplit
    obtain ⟨t, lt⟩ := r
    simp only at hr
    subst hr
    cases f with
    | zero => simp at hf
    | succ f1 =>
      refine ⟨lt, ?_⟩
      simp only [List.cons_append, List.nil_append]
      simp only [next_value, TokenIter.next]
      cases b with
      | true =>
        simp only [if_true] at hlow
        have hne1 : ¬ (sym.map Char.toLower = "none".toList ∨
            sym.map Char.toLower = "null".toList) := by
          rintro (h | h) <;> exact absurd (hlow.symm.trans h) (by decide)
        rw [if_neg hne1, if_pos hlow]
      | false =>
        simp only [Bool.false_eq_true, if_false] at hlow
        have hne1 : ¬ (sym.map Char.toLower = "none".toList ∨
            sym.map Char.toLower = "null".toList) := by
          rintro (h | h) <;> exact absurd (hlow.symm.trans h) (by decide)
        have hne2 : ¬ (sym.map Char.toLower = "true".toList) := by
          intro h
          exact absurd (hlow.symm.trans h) (by decide)
        rw [if_neg hne1, if_neg hne2, if_pos hlow]
  | .Num sn =>
    intro ts henc rts rest l f hmap hf
    simp only [EncV] at henc
    rcases henc with hts | ⟨tn, hsn, hts⟩
    · subst hts
      obtain ⟨r, rb, hsplit, hr, hmb⟩ := map_cons_split rts (Token.Num sn) [] hmap
      have hrb : rb = [] := by cases rb with | nil => rfl | cons a b => simp at hmb
      subst hrb
      subst hsplit
      obtain ⟨t, lt⟩ := r
      simp only at hr
      subst hr
      cases f with
      | zero => simp at hf
      | succ f1 =>
        refine ⟨lt, ?_⟩
        simp only [List.cons_append, List.nil_append]
        simp [next_value, TokenIter.next]
    · subst hsn
      subst hts
      obtain ⟨rd, rb1, hsp1, hrd, hmb1⟩ := map_cons_split rts Token.Dash [Token.Num tn] hmap
      obtain ⟨rn, rb2, hsp2, hrn, hmb2⟩ := map_cons_split rb1 (Token.Num tn) [] hmb1
      have hrb2 : rb2 = [] := by cases rb2 with | nil => rfl | cons a b => simp at hmb2
      subst hrb2
      subst hsp2
      subst hsp1
      obtain ⟨td, ld⟩ := rd
      obtain ⟨tn', ln⟩ := rn
      simp only at hrd hrn
      subst hrd
      subst hrn
      cases f with
      | zero => simp at hf
      | succ f1 =>
        refine ⟨ln, ?_⟩
        simp only [List.cons_append, List.nil_append]
        simp [next_value, TokenIter.next, TokenIter.peek, TokenIter.advance]
  | .Str sn raw =>
    intro ts henc rts rest l f hmap hf
    have hraw : raw = false := by simpa [SafeMin] using hsafe
    subst hraw
    simp only [EncV] at henc
    rcases henc with ⟨_, hts⟩ | ⟨hcontra, _⟩
    · subst hts
      obtain ⟨r, rb, hsplit, hr, hmb⟩ := map_cons_split rts (Token.Str sn) [] hmap
      have hrb : rb = [] := by cases rb with | nil => rfl | cons a b => simp at hmb
      subst hrb
      subst hsplit
      obtain ⟨t, lt⟩ := r
      simp only at hr
      subst hr
      cases f with
      | zero => simp at hf
      | succ f1 =>
        refine ⟨lt, ?_⟩
        simp only [List.cons_append, List.nil_append]
        simp [next_value, TokenIter.next]
    · exact absurd hcontra (by simp)
  | .Obj m =>
    intro ts henc rts rest l f hmap hf
    have hkd : keysDistinct (m.map Prod.fst) = true ∧ SafeMinPairs m = true := by
      have hx : SafeMin (Value.Obj m) = (keysDistinct (m.map Prod.fst) && SafeMinPairs m) := rfl
      rw [hx] at hsafe
      simpa using hsafe
    simp only [EncV] at henc
    obtain ⟨body, hts, hpenc⟩ := henc
    subst hts
    obtain ⟨r0, rbody, hsplit, hr0, hmbody⟩ := map_cons_split rts Token.LBrace body hmap
    subst hsplit
    obtain ⟨t0, l0⟩ := r0
    simp only at hr0
    subst hr0
    cases f with
    | zero => simp at hf
    | succ f1 =>
      have hfuel : rbody.length + 1 ≤ f1 := by
        simp only [List.length_cons] at hf
        omega
      obtain ⟨l', hrec⟩ := encpairs_parse m hkd.2 body hpenc rbody rest l0 [] l0 f1 hmbody hfuel
      refine ⟨l', ?_⟩
      simp only [List.cons_append]
      have hstep : next_value (f1 + 1) ⟨⟨Token.LBrace, l0⟩ :: (rbody ++ rest), l⟩ =
          obj_loop f1 l0 [] ⟨rbody ++ rest, l0⟩ := by
        simp [next_value, TokenIter.next]
      rw [hstep, hrec]
      have hins : insertAll ([] : MapT) m = m := by
        have h2 := insertAll_distinct m [] (by simpa using hkd.1)
        simpa using h2
      rw [hins]
  | .List xs =>
    intro ts henc rts rest l f hmap hf
    have hsi : SafeMinItems xs = true := hsafe
    simp only [EncV] at henc
    obtain ⟨body, hts, hienc⟩ := henc
    subst hts
    obtain ⟨r0, rbody, hsplit, hr0, hmbody⟩ := map_cons_split rts Token.LBrack body hmap
    subst hsplit
    obtain ⟨t0, l0⟩ := r0
    simp only at hr0
    subst hr0
    cases f with
    | zero => simp at hf
    | succ f1 =>
      have hfuel : rbody.length + 1 ≤ f1 := by
        simp only [List.length_cons] at hf
        omega
      obtain ⟨l', hrec⟩ := encitems_parse xs hsi body hienc rbody rest l0 [] l0 f1 hmbody hfuel
      refine ⟨l', ?_⟩
      simp only [List.cons_append]
      have hstep : next_value (f1 + 1) ⟨⟨Token.LBrack, l0⟩ :: (rbody ++ rest), l⟩ =
          list_loop f1 l0 [] ⟨rbody ++ rest, l0⟩ := by
        simp [next_value, TokenIter.next]
      rw [hstep, hrec]
      simp

theorem encpairs_parse (m : List (List Char × Value)) (hsafe : SafeMinPairs m = true) :
    ∀ (ts : List Token), EncPairs m ts →
    ∀ (rts rest : List RichToken) (ol : Loc) (acc : MapT) (l : Loc) (f : Nat),
      rts.map RichToken.inner = ts → rts.length + 1 ≤ f →
      ∃ l', obj_loop f ol acc ⟨rts ++ rest, l⟩ =
        some (.ok (.Obj (insertAll acc m)), ⟨rest, l'⟩) := by
  match m with
  | [] =>
    intro ts henc rts rest ol acc l f hmap hf
    simp only [EncPairs] at henc
    subst henc
    obtain ⟨r, rb, hsplit, hr, hmb⟩ := map_cons_split rts Token.RBrace [] hmap
    have hrb : rb = [] := by cases rb with | nil => rfl | cons a b => simp at hmb
    subst hrb
    subst hsplit
    obtain ⟨t0, l0⟩ := r
    simp only at hr
    subst hr
    cases f with
    | zero => simp at hf
    | succ f1 =>
      refine ⟨l0, ?_⟩
      simp only [List.cons_append, List.nil_append]
      simp [obj_loop, TokenIter.peek, TokenIter.advance, insertAll]
  | (k, v) :: mr =>
    intro ts henc rts rest ol acc l f hmap hf
    have hparts : goodKey k = true ∧ SafeMin v = true ∧ SafeMinPairs mr = true := by
      have hx : SafeMinPairs ((k, v) :: mr) =
          (goodKey k && (SafeMin v && SafeMinPairs mr)) := by
        show (goodKey k && SafeMin v && SafeMinPairs mr) = _
        rw [Bool.and_assoc]
      rw [hx] at hsafe
      simpa [Bool.and_eq_true] using hsafe
    obtain ⟨hk, hv, hmr⟩ := hparts
    simp only [EncPairs] at henc
    obtain ⟨kt, vts, cs, rts', hts, hkt, hvenc, hcs, hrenc⟩ := henc
    subst hts
    obtain ⟨rk, rb1, hsp1, hrk, hmb1⟩ := map_cons_split rts kt _ hmap
    obtain ⟨rc, rb2, hsp2, hrc, hmb2⟩ := map_cons_split rb1 Token.Colon _ hmb1
    rw [List.append_assoc] at hmb2
    obtain ⟨rv, rb3, hsp3, hmv, hmb3⟩ := map_split vts rb2 _ hmb2
    obtain ⟨rcs, rr, hsp4, hmcs, hmrr⟩ := map_split cs rb3 _ hmb3
    subst hsp4
    subst hsp3
    subst hsp2
    subst hsp1
    have hne : ¬ (rk.inner = Token.RBrace) := by
      rw [hrk]
      rcases hkt with h | h | h <;> (rw [h]; simp)
    have hlrr : rts'.length = rr.length := by rw [← hmrr, List.length_map]
    have hrrne : 1 ≤ rr.length := by
      obtain ⟨th, ts2, hts2, _⟩ := encpairs_head_ne_comma mr rts' hrenc
      rw [hts2] at hlrr
      simp only [List.length_cons] at hlrr
      omega
    cases f with
    | zero => simp at hf
    | succ f1 =>
      cases f1 with
      | zero =>
        simp only [List.length_cons, List.length_append] at hf
        omega
      | succ f2 =>
        rcases hcs with hcse | hcsc
        · -- no comma after the value
          subst hcse
          have hrcs : rcs = [] := by cases rcs with | nil => rfl | cons a b => simp at hmcs
          subst hrcs
          obtain ⟨th, ts2, hts2, hthne⟩ := encpairs_head_ne_comma mr rts' hrenc
          obtain ⟨rh, rr2, hsp5, hrh, hmrr2⟩ := map_cons_split rr th ts2 (by rw [hmrr, hts2])
          subst hsp5
          have hfv : rv.length + 1 ≤ f2 := by
            simp only [List.length_cons, List.length_append, List.length_nil] at hf
            omega
          obtain ⟨l3, hnv⟩ := encv_parse v hv vts hvenc rv (rh :: (rr2 ++ rest)) rc.loc f2
            hmv hfv
          have hnkvp := nkvp_key_ok f2 rk rc (rv ++ (rh :: (rr2 ++ rest))) l k v
            ⟨rh :: (rr2 ++ rest), l3⟩ (by rw [hrk]; exact hkt) hrc hnv
          have hfr : (rh :: rr2).length + 1 ≤ f2 + 1 := by
            simp only [List.length_cons, List.length_append, List.length_nil] at hf ⊢
            omega
          obtain ⟨l', hrec⟩ := encpairs_parse mr hmr rts' hrenc (rh :: rr2) rest ol
            (acc.insert k v) l3 (f2 + 1) (by rw [hts2]; simp [hrh, hmrr2]) hfr
          simp only [List.cons_append] at hrec
          refine ⟨l', ?_⟩
          have hshape : (rk :: rc :: (rv ++ ([] ++ (rh :: rr2)))) ++ rest =
              rk :: rc :: (rv ++ (rh :: (rr2 ++ rest))) := by simp
          rw [hshape, obj_loop_step _ _ _ _ _ _ hne, hnkvp]
          show obj_loop (f2 + 1) ol (acc.insert k v)
            (consume_optional_comma ⟨rh :: (rr2 ++ rest), l3⟩) = _
          rw [coc_other rh (rr2 ++ rest) l3 (by rw [hrh]; exact hthne)]
          exact hrec
        · -- comma after the value
          subst hcsc
          obtain ⟨rcm, rb5, hsp5, hrcm, hmb5⟩ := map_cons_split rcs Token.Comma [] hmcs
          have hrb5 : rb5 = [] := by cases rb5 with | nil => rfl | cons a b => simp at hmb5
          subst hrb5
          subst hsp5
          have hfv : rv.length + 1 ≤ f2 := by
            simp only [List.length_cons, List.length_append] at hf
            omega
          obtain ⟨l3, hnv⟩ := encv_parse v hv vts hvenc rv (rcm :: (rr ++ rest)) rc.loc f2
            hmv hfv
          have hnkvp := nkvp_key_ok f2 rk rc (rv ++ (rcm :: (rr ++ rest))) l k v
            ⟨rcm :: (rr ++ rest), l3⟩ (by rw [hrk]; exact hkt) hrc hnv
          have hfr : rr.length + 1 ≤ f2 + 1 := by
            simp only [List.length_cons, List.length_append] at hf
            omega
          obtain ⟨l', hrec⟩ := encpairs_parse mr hmr rts' hrenc rr rest ol
            (acc.insert k v) rcm.loc (f2 + 1) hmrr hfr
          refine ⟨l', ?_⟩
          have hshape : (rk :: rc :: (rv ++ ((rcm :: []) ++ rr))) ++ rest =
              rk :: rc :: (rv ++ (rcm :: (rr ++ rest))) := by simp
          rw [hshape, obj_loop_step _ _ _ _ _ _ hne, hnkvp]
          show obj_loop (f2 + 1) ol (acc.insert k v)
            (consume_optional_comma ⟨rcm :: (rr ++ rest), l3⟩) = _
          rw [coc_comma rcm (rr ++ rest) l3 hrcm]
          exact hrec

theorem encitems_parse (xs : List Value) (hsafe : SafeMinItems xs = true) :
    ∀ (ts : List Token), EncItems xs ts →
    ∀ (rts rest : List RichToken) (ol : Loc) (acc : List Value) (l : Loc) (f : Nat),
      rts.map RichToken.inner = ts → rts.length + 1 ≤ f →
      ∃ l', list_loop f ol acc ⟨rts ++ rest, l⟩ =
        some (.ok (.List (acc ++ xs)), ⟨rest, l'⟩) := by
  match xs with
  | [] =>
    intro ts henc rts rest ol acc l f hmap hf
    simp only [EncItems] at henc
    subst henc
    obtain ⟨r, rb, hsplit, hr, hmb⟩ := map_cons_split rts Token.RBrack [] hmap
    have hrb : rb = [] := by cases rb with | nil => rfl | cons a b => simp at hmb
    subst hrb
    subst hsplit
    obtain ⟨t0, l0⟩ := r
    simp only at hr
    subst hr
    cases f with
    | zero => simp at hf
    | succ f1 =>
      refine ⟨l0, ?_⟩
      simp only [List.cons_append, List.nil_append]
      simp [list_loop, TokenIter.peek, TokenIter.advance]
  | x :: xr =>
    intro ts henc rts rest ol acc l f hmap hf
    have hparts : SafeMin x = true ∧ SafeMinItems xr = true := by
      have hx : SafeMinItems (x :: xr) = (SafeMin x && SafeMinItems xr) := rfl
      rw [hx] at hsafe
      simpa using hsafe
    obtain ⟨hvx, hxr⟩ := hparts
    simp only [EncItems] at henc
    obtain ⟨vts, cs, rts', hts, hvenc, hcs, hrenc⟩ := henc
    subst hts
    rw [List.append_assoc] at hmap
    obtain ⟨rv, rb3, hsp3, hmv, hmb3⟩ := map_split vts rts _ hmap
    obtain ⟨rcs, rr, hsp4, hmcs, hmrr⟩ := map_split cs rb3 _ hmb3
    subst hsp4
    subst hsp3
    obtain ⟨tv, tvs2, htv2, _, htvne, _⟩ := encv_head_ne x vts hvenc
    obtain ⟨rvh, rv2, hsp5, hrvh, hmrv2⟩ := map_cons_split rv tv tvs2 (by rw [hmv, htv2])
    subst hsp5
    have hne : ¬ (rvh.inner = Token.RBrack) := by rw [hrvh]; exact htvne
    have hlrr : rts'.length = rr.length := by rw [← hmrr, List.length_map]
    have hrrne : 1 ≤ rr.length := by
      obtain ⟨th, ts2, hts2, _⟩ := encitems_head_ne_comma xr rts' hrenc
      rw [hts2] at hlrr
      simp only [List.length_cons] at hlrr
      omega
    cases f with
    | zero => simp at hf
    | succ f1 =>
      rcases hcs with hcse | hcsc
      · -- no comma after the element
        subst hcse
        have hrcs : rcs = [] := by cases rcs with | nil => rfl | cons a b => simp at hmcs
        subst hrcs
        obtain ⟨th, ts2, hts2, hthne⟩ := encitems_head_ne_comma xr rts' hrenc
        obtain ⟨rh, rr2, hsp6, hrh, hmrr2⟩ := map_cons_split rr th ts2 (by rw [hmrr, hts2])
        subst hsp6
        have hfv : (rvh :: rv2).length + 1 ≤ f1 := by
          simp only [List.length_cons, List.length_append, List.length_nil] at hf ⊢
          omega
        obtain ⟨l3, hnv⟩ := encv_parse x hvx vts hvenc (rvh :: rv2) (rh :: (rr2 ++ rest)) l f1
          (by rw [htv2]; simp [hrvh, hmrv2]) hfv
        simp only [List.cons_append] at hnv
        have hfr : (rh :: rr2).length + 1 ≤ f1 := by
          simp only [List.length_cons, List.length_append, List.length_nil] at hf ⊢
          omega
        obtain ⟨l', hrec⟩ := encitems_parse xr hxr rts' hrenc (rh :: rr2) rest ol
          (acc ++ [x]) l3 f1 (by rw [hts2]; simp [hrh, hmrr2]) hfr
        simp only [List.cons_append] at hrec
        refine ⟨l', ?_⟩
        have hshape : ((rvh :: rv2) ++ ([] ++ (rh :: rr2))) ++ rest =
            rvh :: (rv2 ++ (rh :: (rr2 ++ rest))) := by simp
        rw [hshape, list_loop_step _ _ _ _ _ _ hne, hnv]
        show list_loop f1 ol (acc ++ [x])
          (consume_optional_comma ⟨rh :: (rr2 ++ rest), l3⟩) = _
        rw [coc_other rh (rr2 ++ rest) l3 (by rw [hrh]; exact hthne)]
        have hacc : (acc ++ [x]) ++ xr = acc ++ (x :: xr) := by simp
        rw [← hacc]
        exact hrec
      · -- comma after the element
        subst hcsc
        obtain ⟨rcm, rb5, hsp5, hrcm, hmb5⟩ := map_cons_split rcs Token.Comma [] hmcs
        have hrb5 : rb5 = [] := by cases rb5 with | nil => rfl | cons a b => simp at hmb5
        subst hrb5
        subst hsp5
        have hfv : (rvh :: rv2).length + 1 ≤ f1 := by
          simp only [List.length_cons, List.length_append] at hf ⊢
          omega
        obtain ⟨l3, hnv⟩ := encv_parse x hvx vts hvenc (rvh :: rv2) (rcm :: (rr ++ rest)) l f1
          (by rw [htv2]; simp [hrvh, hmrv2]) hfv
        simp only [List.cons_append] at hnv
        have hfr : rr.length + 1 ≤ f1 := by
          simp only [List.length_cons, List.length_append] at hf
          omega
        obtain ⟨l', hrec⟩ := encitems_parse xr hxr rts' hrenc rr rest ol
          (acc ++ [x]) rcm.loc f1 hmrr hfr
        refine ⟨l', ?_⟩
        have hshape : ((rvh :: rv2) ++ ((rcm :: []) ++ rr)) ++ rest =
            rvh :: (rv2 ++ (rcm :: (rr ++ rest))) := by simp
        rw [hshape, list_loop_step _ _ _ _ _ _ hne, hnv]
        show list_loop f1 ol (acc ++ [x])
          (consume_optional_comma ⟨rcm :: (rr ++ rest), l3⟩) = _
        rw [coc_comma rcm (rr ++ rest) l3 hrcm]
        have hacc : (acc ++ [x]) ++ xr = acc ++ (x :: xr) := by simp
        rw [← hacc]
        exact hrec

end


/-- The minimal round trip: under `SafeMin`, `parse` inverts `min_spell`. -/
theorem min_spell_parse (v : Value) (hsafe : SafeMin v = true) :
    parse (min_spell v) = .ok v := by
  obtain ⟨rts, l', heq, henc⟩ := min_lex v hsafe [] (Loc.start_of_file 0)
    (by intro c hc; simp at hc)
  rw [List.append_nil] at heq
  have hlex : lex (min_spell v) 0 = .ok rts := by
    unfold lex
    rw [heq]
    simp [lexM, lexFlush, Except.map]
  unfold parse
  rw [hlex]
  simp only [parseTokens]
  obtain ⟨l2, hnv⟩ := encv_parse v hsafe (rts.map RichToken.inner) henc rts []
    (Loc.start_of_file 0) (2 * rts.length + 2) rfl (by omega)
  rw [List.append_nil] at hnv
  rw [hnv]
  simp [TokenIter.next]

/-- The pretty round trip: under `SafeMin`, `FmtOk` and a whitespace indent
character, `parse` inverts `spell`. -/
theorem spell_parse (v : Value) (cfg : SpellConfig) (hsafe : SafeMin v = true)
    (hfmt : FmtOk cfg v = true) (hic : isWs cfg.indent_char = true) :
    parse (spell v cfg) = .ok v := by
  obtain ⟨rts, l', heq, henc⟩ := fmt_lex cfg hic v hsafe hfmt 0 [] (Loc.start_of_file 0)
    (by intro c hc; simp at hc)
  rw [List.append_nil] at heq
  have hlex : lex (spell v cfg) 0 = .ok rts := by
    unfold lex spell
    rw [heq]
    simp [lexM, lexFlush, Except.map]
  unfold parse
  rw [hlex]
  simp only [parseTokens]
  obtain ⟨l2, hnv⟩ := encv_parse v hsafe (rts.map RichToken.inner) henc rts []
    (Loc.start_of_file 0) (2 * rts.length + 2) rfl (by omega)
  rw [List.append_nil] at hnv
  rw [hnv]
  simp [TokenIter.next]


/-- C4 (corrected): for every value `v` with no raw string, only exactly
re-tokenizable numeric texts, reproducible and pairwise-distinct object keys
(`SafeMin`), parsing the minimal spelling returns `v` exactly; and for every
config whose indent character is whitespace and under which every string
literal of `v` is reproduced verbatim (`FmtOk` — wrapping off, or no
whitespace runs and fitting the width), parsing the pretty spelling also
returns `v`.  The pretty half does not hold for every config: see the
counterexample. -/
theorem c4_spell_round_trip (v : Value) (cfg : SpellConfig)
    (hsafe : SafeMin v = true) :
    parse (min_spell v) = .ok v ∧
    (FmtOk cfg v = true → isWs cfg.indent_char = true →
      parse (spell v cfg) = .ok v) :=
  ⟨min_spell_parse v hsafe, fun hfmt hic => spell_parse v cfg hsafe hfmt hic⟩

/-- C4 counterexample: `Str "a  b"` (not raw, no numeric text at all) is in
the claim's scope, yet pretty-printing under the default config squashes the
double space, so the round trip returns a different value. -/
theorem c4_counterexample :
    SafeMin (Value.Str ('a' :: ' ' :: ' ' :: ['b']) false) = true ∧
    parse (spell (Value.Str ('a' :: ' ' :: ' ' :: ['b']) false) SpellConfig.default) =
      .ok (Value.Str ('a' :: ' ' :: ['b']) false) ∧
    Value.Str ('a' :: ' ' :: ['b']) false ≠ Value.Str ('a' :: ' ' :: ' ' :: ['b']) false :=
  ⟨rfl, rfl, by simp⟩

/-- C4 witness: a nested object — quoted and bare keys, a number, a string,
a multi-line list — round-trips through both renderers. -/
theorem c4_witness :
    SafeMin (Value.Obj [("a".toList, Value.Num ['1']),
      ("b c".toList, Value.List [Value.Str ['x'] false, Value.None, Value.Obj []])]) = true ∧
    FmtOk SpellConfig.default (Value.Obj [("a".toList, Value.Num ['1']),
      ("b c".toList, Value.List [Value.Str ['x'] false, Value.None, Value.Obj []])]) = true ∧
    isWs SpellConfig.default.indent_char = true ∧
    parse (min_spell (Value.Obj [("a".toList, Value.Num ['1']),
      ("b c".toList, Value.List [Value.Str ['x'] false, Value.None, Value.Obj []])])) =
      .ok (Value.Obj [("a".toList, Value.Num ['1']),
        ("b c".toList, Value.List [Value.Str ['x'] false, Value.None, Value.Obj []])]) ∧
    parse (spell (Value.Obj [("a".toList, Value.Num ['1']),
        ("b c".toList, Value.List [Value.Str ['x'] false, Value.None, Value.Obj []])])
        SpellConfig.default) =
      .ok (Value.Obj [("a".toList, Value.Num ['1']),
        ("b c".toList, Value.List [Value.Str ['x'] false, Value.None, Value.Obj []])]) := by
  refine ⟨by decide, by decide, by decide, ?_, ?_⟩
  · exact (c4_spell_round_trip (Value.Obj [("a".toList, Value.Num ['1']),
      ("b c".toList, Value.List [Value.Str ['x'] false, Value.None, Value.Obj []])])
      SpellConfig.default (by decide)).1
  · exact (c4_spell_round_trip (Value.Obj [("a".toList, Value.Num ['1']),
      ("b c".toList, Value.List [Value.Str ['x'] false, Value.None, Value.Obj []])])
      SpellConfig.default (by decide)).2 (by decide) (by decide)

end Gon
